import Mathlib

/-!
Verification of the markdown/block converter of the notion-mcp repository
(src/utils/markdown-converter.ts), shallowly embedded over `List Char`.
Strings of the source are modelled as lists of characters; the five inline
regular expressions are modelled by hand as leftmost, lazy (non-greedy)
matchers with the exact semantics of the JavaScript patterns; the loosely
typed block records consumed by the reverse pipeline are modelled by a JSON-like
value type `JVal`, with member access returning `Except Unit` so that the
TypeError thrown by a property access on `undefined`/`null` is observable.
-/

namespace NotionMcp

abbrev Str := List Char

/-! ## Inline scanner: parseInlineFormatting -/

/-- A text run, the embedding of the `NotionRichText` objects built by
`parseInlineFormatting`.  The source builds plain runs without `annotations`
and `link` fields, formatted runs with exactly one annotation flag set and
`link: null`, and link runs with empty `annotations` and a `link` object;
all of those shapes are determined by the fields below (`Block.toJVal`
reproduces the exact field layout). -/
structure NotionRichText where
  content : Str
  bold : Bool := false
  italic : Bool := false
  strikethrough : Bool := false
  code : Bool := false
  link : Option Str := none
deriving DecidableEq, Repr

def mkPlain (s : Str) : NotionRichText := { content := s }

/-- Lazy search for a two-character closing delimiter `d d`: the embedding of
the tail `(.+?)dd` of the bold/strikethrough regexes applied after the opening
delimiter.  The group `.+?` matches one or more characters none of which is a
newline (JavaScript `.` without the `s` flag), as few as possible.  Returns the
captured content and the suffix after the closing delimiter. -/
def lazyClose2 (d : Char) : Str → Option (Str × Str)
  | [] => none
  | c :: cs =>
    if c = '\n' then none
    else if cs.take 2 = [d, d] then some ([c], cs.drop 2)
    else
      match lazyClose2 d cs with
      | some (content, rest) => some (c :: content, rest)
      | none => none

/-- Lazy search for a one-character closing delimiter `d`: the tail `(.+?)d`
of the italic/code regexes after the opening delimiter. -/
def lazyClose1 (d : Char) : Str → Option (Str × Str)
  | [] => none
  | c :: cs =>
    if c = '\n' then none
    else if cs.take 1 = [d] then some ([c], cs.drop 1)
    else
      match lazyClose1 d cs with
      | some (content, rest) => some (c :: content, rest)
      | none => none

/-- Attempt of the bold pattern at the current position:
the regex is two asterisks, a lazy non-empty group, two asterisks.
Returns (captured content, optional url, suffix after the match). -/
def boldAt : Str → Option (Str × Option Str × Str)
  | c1 :: c2 :: rest =>
    if c1 = '*' ∧ c2 = '*' then (lazyClose2 '*' rest).map fun p => (p.1, none, p.2)
    else none
  | _ => none

/-- Attempt of the italic pattern at the current position:
one asterisk, a lazy non-empty group, one asterisk. -/
def italicAt : Str → Option (Str × Option Str × Str)
  | c :: rest =>
    if c = '*' then (lazyClose1 '*' rest).map fun p => (p.1, none, p.2)
    else none
  | [] => none

/-- Attempt of the strikethrough pattern at the current position. -/
def strikeAt : Str → Option (Str × Option Str × Str)
  | c1 :: c2 :: rest =>
    if c1 = '~' ∧ c2 = '~' then (lazyClose2 '~' rest).map fun p => (p.1, none, p.2)
    else none
  | _ => none

/-- Attempt of the inline-code pattern at the current position. -/
def codeAt : Str → Option (Str × Option Str × Str)
  | c :: rest =>
    if c = '`' then (lazyClose1 '`' rest).map fun p => (p.1, none, p.2)
    else none
  | [] => none

/-- Attempt of the link pattern at the current position: the regex is a
bracketed greedy non-empty run of non-bracket characters followed by a
parenthesised greedy non-empty run of non-parenthesis characters.  Because each
character class excludes its closing delimiter, the greedy matches are the
maximal runs. -/
def linkAt : Str → Option (Str × Option Str × Str)
  | c :: rest =>
    if c = '[' then
      let t := rest.takeWhile (fun d => d != ']')
      if t.isEmpty then none
      else
        match rest.drop t.length with
        | ']' :: '(' :: r2 =>
          let u := r2.takeWhile (fun d => d != ')')
          if u.isEmpty then none
          else
            match r2.drop u.length with
            | ')' :: tail => some (t, some u, tail)
            | _ => none
        | _ => none
    else none
  | [] => none

/-- Leftmost match of a single inline pattern in a string: the embedding of
`regex.exec(remaining)` after `regex.lastIndex = 0`.  Returns the match index,
the captured content, the captured url (links only) and the suffix after the
match. -/
def firstMatch (p : Str → Option (Str × Option Str × Str)) :
    Str → Option (Nat × Str × Option Str × Str)
  | [] => none
  | c :: cs =>
    match p (c :: cs) with
    | some (content, url, rest) => some (0, content, url, rest)
    | none =>
      match firstMatch p cs with
      | some (i, content, url, rest) => some (i + 1, content, url, rest)
      | none => none

/-- The five inline constructs, in the evaluation order of the source's
`patterns` array. -/
inductive Ann where
  | bold | italic | strikethrough | code | link
deriving DecidableEq, Repr

/-- The matcher of each construct. -/
def patOf : Ann → (Str → Option (Str × Option Str × Str))
  | .bold => boldAt
  | .italic => italicAt
  | .strikethrough => strikeAt
  | .code => codeAt
  | .link => linkAt

/-- Position of a construct in the source's `patterns` array. -/
def annOrder : Ann → Nat
  | .bold => 0
  | .italic => 1
  | .strikethrough => 2
  | .code => 3
  | .link => 4

/-- The `earliestMatch` record of the scanning loop. -/
structure InlineMatch where
  index : Nat
  content : Str
  ann : Ann
  url : Option Str
  rest : Str
deriving DecidableEq, Repr

/-- One step of the `for (const { regex, annotation } of patterns)` loop:
replace the accumulator when the new pattern has a match of strictly smaller
index (`match.index < earliestMatch.index`). -/
def updEarliest (acc : Option InlineMatch) (a : Ann)
    (r : Option (Nat × Str × Option Str × Str)) : Option InlineMatch :=
  match r with
  | none => acc
  | some (i, content, url, rest) =>
    match acc with
    | none => some ⟨i, content, a, url, rest⟩
    | some m => if i < m.index then some ⟨i, content, a, url, rest⟩ else acc

/-- The candidate-selection loop over the five patterns, in source order. -/
def pickEarliest (remaining : Str) : Option InlineMatch :=
  updEarliest
    (updEarliest
      (updEarliest
        (updEarliest
          (updEarliest none .bold (firstMatch boldAt remaining))
          .italic (firstMatch italicAt remaining))
        .strikethrough (firstMatch strikeAt remaining))
      .code (firstMatch codeAt remaining))
    .link (firstMatch linkAt remaining)

/-- The formatted run built for a selected match: one annotation flag for the
non-link constructs, and for links the `earliestMatch.url ? {url} : null`
truthiness test (an empty url string is falsy). -/
def mkRun (m : InlineMatch) : NotionRichText :=
  { content := m.content
    bold := m.ann = Ann.bold
    italic := m.ann = Ann.italic
    strikethrough := m.ann = Ann.strikethrough
    code := m.ann = Ann.code
    link := match m.url with
      | some u => if u.isEmpty then none else some u
      | none => none }

/-- The `while (remaining.length > 0)` loop of `parseInlineFormatting`.
Each iteration either selects the earliest match (emitting the plain prefix
when the match index is positive, then the formatted run, then continuing on
the suffix after the match) or emits the whole remainder as a plain run and
stops.  The loop consumes at least one character per iteration
(`pickEarliest_rest_lt`), so it is driven by a fuel of `length + 1`, which
never runs out (`parseLoopF_fuel`). -/
def parseLoopF : Nat → Str → List NotionRichText
  | 0, _ => []
  | f + 1, remaining =>
    match remaining with
    | [] => []
    | c :: cs =>
      match pickEarliest (c :: cs) with
      | some m =>
        (if 0 < m.index then [mkPlain ((c :: cs).take m.index)] else []) ++
          mkRun m :: parseLoopF f m.rest
      | none => [mkPlain (c :: cs)]

/-- `parseInlineFormatting`, including the final
`result.length > 0 ? result : [plain run of the whole input]` fallback. -/
def parseInlineFormatting (text : Str) : List NotionRichText :=
  let result := parseLoopF (text.length + 1) text
  if result.isEmpty then [mkPlain text] else result

/-! ## Line classifier: lineToBlock -/

/-- Whitespace for `String.prototype.trim` and the regex class `\s`
(the ASCII part; the Unicode whitespace code points, which no theorem below
exercises, behave the same way). -/
def isJsWhitespace (c : Char) : Bool :=
  c = ' ' || c = '\t' || c = '\n' || c = '\r' || c = '\x0b' || c = '\x0c'

/-- `String.prototype.trim`: drop leading and trailing whitespace. -/
def trim (s : Str) : Str :=
  ((s.dropWhile isJsWhitespace).reverse.dropWhile isJsWhitespace).reverse

/-- `String.prototype.startsWith`. -/
def startsWith : Str → Str → Bool
  | _, [] => true
  | [], _ :: _ => false
  | c :: cs, p :: ps => c = p && startsWith cs ps

def h1Mark : Str := ['#', ' ']
def h2Mark : Str := ['#', '#', ' ']
def h3Mark : Str := ['#', '#', '#', ' ']
def todoUnchecked : Str := ['-', ' ', '[', ' ', ']', ' ']
def todoChecked : Str := ['-', ' ', '[', 'x', ']', ' ']
def bulletDash : Str := ['-', ' ']
def bulletStar : Str := ['*', ' ']
def quoteMark : Str := ['>', ' ']
def dividerDash : Str := ['-', '-', '-']
def dividerStar : Str := ['*', '*', '*']
def dividerUnder : Str := ['_', '_', '_']
def fence3 : Str := ['`', '`', '`']
def plainTextLang : Str := ['p', 'l', 'a', 'i', 'n', ' ', 't', 'e', 'x', 't']

/-- The numbered-list test of `lineToBlock`: the regex `^(\d+)\.\s+(.+)$`,
returning the second capture group on a match.  `\d+` takes the maximal digit
run (a shorter run cannot help, since the next character would be a digit, not
a dot); `\s+` takes the maximal whitespace run and gives back its final
character to `.+` when nothing follows it (that character must not be a
newline, which `.` cannot match); `.+` then takes the rest, which must be
non-empty and free of newlines. -/
def numberedMatch (s : Str) : Option Str :=
  let digits := s.takeWhile Char.isDigit
  if digits.isEmpty then none
  else
    match s.drop digits.length with
    | '.' :: rest =>
      let ws := rest.takeWhile isJsWhitespace
      if ws.isEmpty then none
      else
        let content := rest.drop ws.length
        if content.isEmpty then
          if 2 ≤ ws.length && ws.getLastD ' ' != '\n' then some [ws.getLastD ' ']
          else none
        else if content.all (fun c => c != '\n') then some content
        else none
    | _ => none

/-- A block, the embedding of the `NotionBlock` object literals that
`markdownToBlocks` builds (each variant carries the payload of the literal;
the constant `object: 'block'` and `type` fields are restored by
`Block.toJVal`). -/
inductive Block where
  | heading1 (richText : List NotionRichText)
  | heading2 (richText : List NotionRichText)
  | heading3 (richText : List NotionRichText)
  | toDo (richText : List NotionRichText) (checked : Bool)
  | bulleted (richText : List NotionRichText)
  | numbered (richText : List NotionRichText)
  | quote (richText : List NotionRichText)
  | divider
  | paragraph (richText : List NotionRichText)
  | code (richText : List NotionRichText) (language : Str)
deriving DecidableEq, Repr

/-- `lineToBlock`: classify one line, in the exact test order of the source
(heading 1, heading 2, heading 3, checkbox, bullet, numbered, quote, divider,
paragraph; a blank line yields nothing). -/
def lineToBlock (line : Str) : Option Block :=
  let trimmed := trim line
  if trimmed.isEmpty then none
  else if startsWith trimmed h1Mark then
    some (.heading1 (parseInlineFormatting (trimmed.drop 2)))
  else if startsWith trimmed h2Mark then
    some (.heading2 (parseInlineFormatting (trimmed.drop 3)))
  else if startsWith trimmed h3Mark then
    some (.heading3 (parseInlineFormatting (trimmed.drop 4)))
  else if startsWith trimmed todoUnchecked || startsWith trimmed todoChecked then
    some (.toDo (parseInlineFormatting (trimmed.drop 6)) (startsWith trimmed todoChecked))
  else if startsWith trimmed bulletDash || startsWith trimmed bulletStar then
    some (.bulleted (parseInlineFormatting (trimmed.drop 2)))
  else
    match numberedMatch trimmed with
    | some content => some (.numbered (parseInlineFormatting content))
    | none =>
      if startsWith trimmed quoteMark then
        some (.quote (parseInlineFormatting (trimmed.drop 2)))
      else if trimmed = dividerDash || trimmed = dividerStar || trimmed = dividerUnder then
        some .divider
      else
        some (.paragraph (parseInlineFormatting trimmed))

/-! ## Fence splitter: parseCodeBlocks -/

/-- One segment of `parseCodeBlocks`.  For code segments the source stores
`language: codeLanguage || 'plain text'`; text segments carry no language. -/
structure CodePart where
  content : Str
  isCode : Bool
  language : Option Str := none
deriving DecidableEq, Repr

/-- `String.prototype.split('\n')`. -/
def splitLines : Str → List Str
  | [] => [[]]
  | c :: cs =>
    if c = '\n' then [] :: splitLines cs
    else
      match splitLines cs with
      | l :: ls => (c :: l) :: ls
      | [] => [[c]]

/-- `Array.prototype.join('\n')` over line lists. -/
def joinNl (ls : List Str) : Str := List.intercalate ['\n'] ls

/-- The `codeLanguage || 'plain text'` default (an empty string is falsy). -/
def orPlainText (lang : Str) : Str := if lang.isEmpty then plainTextLang else lang

/-- The loop state of `parseCodeBlocks`. -/
structure FenceState where
  inCodeBlock : Bool
  codeContent : List Str
  codeLanguage : Str
  textContent : List Str
  parts : List CodePart
deriving Repr

/-- One iteration of the `for (const line of lines)` loop of
`parseCodeBlocks`: a line starting with three backticks toggles the fence
state (closing flushes the code accumulator with the defaulted language;
opening flushes a non-empty prose accumulator and captures the trimmed
language tag); other lines go to the active accumulator. -/
def fenceStep (st : FenceState) (line : Str) : FenceState :=
  if startsWith line fence3 then
    if st.inCodeBlock then
      { inCodeBlock := false
        codeContent := []
        codeLanguage := []
        textContent := st.textContent
        parts := st.parts ++ [⟨joinNl st.codeContent, true, some (orPlainText st.codeLanguage)⟩] }
    else
      { inCodeBlock := true
        codeContent := st.codeContent
        codeLanguage := trim (line.drop 3)
        textContent := []
        parts :=
          if st.textContent.isEmpty then st.parts
          else st.parts ++ [⟨joinNl st.textContent, false, none⟩] }
  else if st.inCodeBlock then { st with codeContent := st.codeContent ++ [line] }
  else { st with textContent := st.textContent ++ [line] }

def fenceInit : FenceState := ⟨false, [], [], [], []⟩

/-- `parseCodeBlocks`: run the line loop, then flush the remaining prose
accumulator and, when the code accumulator is non-empty (an unterminated
fence), flush it as a code segment as well. -/
def parseCodeBlocks (markdown : Str) : List CodePart :=
  let st := (splitLines markdown).foldl fenceStep fenceInit
  let parts :=
    if st.textContent.isEmpty then st.parts
    else st.parts ++ [⟨joinNl st.textContent, false, none⟩]
  if st.codeContent.isEmpty then parts
  else parts ++ [⟨joinNl st.codeContent, true, some (orPlainText st.codeLanguage)⟩]

/-- `markdownToBlocks`: code segments become `code` blocks (with the
`part.language || 'plain text'` default applied a second time and the raw body
as a single unformatted run); prose segments are split back into lines and
classified line by line. -/
def markdownToBlocks (markdown : Str) : List Block :=
  (parseCodeBlocks markdown).foldl
    (fun blocks part =>
      if part.isCode then
        blocks ++ [Block.code [mkPlain part.content]
          (match part.language with
           | some l => if l.isEmpty then plainTextLang else l
           | none => plainTextLang)]
      else blocks ++ (splitLines part.content).filterMap lineToBlock)
    []

/-! ## Loosely typed records: the `unknown[]` input of the reverse pipeline

`blocksToMarkdown` and `blocksToPlainText` take `unknown[]` and probe fields
dynamically.  `JVal` models the JavaScript values that can appear there
(numbers play no role in any claim and are omitted).  A plain member access
`v.k` throws a TypeError when `v` is `undefined` or `null`, so it is modelled
in `Except Unit`; the optional-chain access `v?.k` yields `undefined` instead.
-/

inductive JVal where
  | undef
  | nullv
  | bool (b : Bool)
  | str (s : Str)
  | arr (xs : List JVal)
  | obj (fields : List (Str × JVal))

/-- Field lookup on an object (first binding wins); `undefined` for a missing
field or a primitive receiver. -/
def JVal.lookupKey (v : JVal) (k : Str) : JVal :=
  match v with
  | .obj fs =>
    match fs.find? (fun f => f.1 = k) with
    | some f => f.2
    | none => .undef
  | _ => .undef

def JVal.isNullish : JVal → Bool
  | .undef => true
  | .nullv => true
  | _ => false

/-- Plain member access `v.k`: a TypeError on `undefined`/`null`. -/
def JVal.get (v : JVal) (k : Str) : Except Unit JVal :=
  if v.isNullish then .error () else .ok (v.lookupKey k)

/-- Optional-chain access `v?.k`. -/
def JVal.getOpt (v : JVal) (k : Str) : JVal :=
  if v.isNullish then .undef else v.lookupKey k

/-- JavaScript truthiness of the modelled values. -/
def JVal.truthy : JVal → Bool
  | .undef => false
  | .nullv => false
  | .bool b => b
  | .str s => !s.isEmpty
  | .arr _ => true
  | .obj _ => true

def JVal.isArray : JVal → Bool
  | .arr _ => true
  | _ => false

/-- JavaScript ToString as it reaches the template literals, string
concatenations and computed property keys of the source.  The cases that any
theorem below can observe (strings, booleans, `undefined`, `null`, objects)
are exact; for arrays, `Array.prototype.toString` joins the stringified
elements with commas (`null`/`undefined` elements become empty) — its
recursion into nested arrays is cut off at one level, which no claim
exercises. -/
def JVal.displayStr : JVal → Str
  | .undef => "undefined".data
  | .nullv => "null".data
  | .bool true => "true".data
  | .bool false => "false".data
  | .str s => s
  | .obj _ => "[object Object]".data
  | .arr xs =>
    List.intercalate [','] (xs.map fun x =>
      match x with
      | .undef => []
      | .nullv => []
      | .bool true => "true".data
      | .bool false => "false".data
      | .str s => s
      | .obj _ => "[object Object]".data
      | .arr _ => [])

def typeK : Str := ['t', 'y', 'p', 'e']
def textK : Str := ['t', 'e', 'x', 't']
def contentK : Str := ['c', 'o', 'n', 't', 'e', 'n', 't']
def linkK : Str := ['l', 'i', 'n', 'k']
def urlK : Str := ['u', 'r', 'l']
def annotationsK : Str := ['a', 'n', 'n', 'o', 't', 'a', 't', 'i', 'o', 'n', 's']
def richTextK : Str := ['r', 'i', 'c', 'h', '_', 't', 'e', 'x', 't']
def checkedK : Str := ['c', 'h', 'e', 'c', 'k', 'e', 'd']
def languageK : Str := ['l', 'a', 'n', 'g', 'u', 'a', 'g', 'e']
def objectK : Str := ['o', 'b', 'j', 'e', 'c', 't']
def boldK : Str := ['b', 'o', 'l', 'd']
def italicK : Str := ['i', 't', 'a', 'l', 'i', 'c']
def strikethroughK : Str := ['s', 't', 'r', 'i', 'k', 'e', 't', 'h', 'r', 'o', 'u', 'g', 'h']
def codeK : Str := ['c', 'o', 'd', 'e']
def paragraphK : Str := ['p', 'a', 'r', 'a', 'g', 'r', 'a', 'p', 'h']
def heading1K : Str := ['h', 'e', 'a', 'd', 'i', 'n', 'g', '_', '1']
def heading2K : Str := ['h', 'e', 'a', 'd', 'i', 'n', 'g', '_', '2']
def heading3K : Str := ['h', 'e', 'a', 'd', 'i', 'n', 'g', '_', '3']
def bulletedK : Str := ['b', 'u', 'l', 'l', 'e', 't', 'e', 'd', '_', 'l', 'i', 's', 't', '_', 'i', 't', 'e', 'm']
def numberedK : Str := ['n', 'u', 'm', 'b', 'e', 'r', 'e', 'd', '_', 'l', 'i', 's', 't', '_', 'i', 't', 'e', 'm']
def toDoK : Str := ['t', 'o', '_', 'd', 'o']
def quoteK : Str := ['q', 'u', 'o', 't', 'e']
def dividerK : Str := ['d', 'i', 'v', 'i', 'd', 'e', 'r']
def blockK : Str := ['b', 'l', 'o', 'c', 'k']
def numberedOne : Str := ['1', '.', ' ']

/-- Does a `switch (type)` discriminant equal the given case label?
(strict equality, so only a string value can match). -/
def JVal.isStrEq (v : JVal) (k : Str) : Bool :=
  match v with
  | .str s => s = k
  | _ => false

/-- The callback of `richText.map(rt => ...)` in `richTextToMarkdown`:
`rt.text` is a plain access (a TypeError on a nullish run);
`?.content || ''` falls back to the empty string on a falsy content;
the four annotation flags are tested with optional chains and applied in the
fixed order code, bold, italic, strikethrough; finally a truthy
`rt.text?.link?.url` wraps the accumulated text in link syntax. -/
def runToMarkdown (rt : JVal) : Except Unit Str := do
  let textv ← rt.get textK
  let contentv := textv.getOpt contentK
  let t0 := if contentv.truthy then contentv.displayStr else []
  let anns := rt.lookupKey annotationsK
  let t1 := if (anns.getOpt codeK).truthy then '`' :: t0 ++ ['`'] else t0
  let t2 := if (anns.getOpt boldK).truthy then '*' :: '*' :: t1 ++ ['*', '*'] else t1
  let t3 := if (anns.getOpt italicK).truthy then '*' :: t2 ++ ['*'] else t2
  let t4 := if (anns.getOpt strikethroughK).truthy then '~' :: '~' :: t3 ++ ['~', '~'] else t3
  let urlv := (textv.getOpt linkK).getOpt urlK
  let t5 := if urlv.truthy then '[' :: t4 ++ ']' :: '(' :: urlv.displayStr ++ [')'] else t4
  pure t5

/-- `richTextToMarkdown`: `!richText || !Array.isArray(richText)` returns the
empty string (an array is always truthy, so the guard reduces to the array
test); otherwise map every run and join with the empty separator. -/
def richTextToMarkdown (richText : JVal) : Except Unit Str :=
  match richText with
  | .arr items => do
    let strs ← items.mapM runToMarkdown
    pure strs.flatten
  | _ => .ok []

/-- The switch body of `blocksToMarkdown` for one block: the list of strings
pushed onto `lines`.  `b.type` and the per-case payload accesses are plain
accesses (TypeErrors on nullish values); the `default` arm probes `b[type]`
(the discriminant coerced to a property key) and only renders a truthy
`rich_text`. -/
def blockLines (b : JVal) : Except Unit (List Str) := do
  let tv ← b.get typeK
  if tv.isStrEq paragraphK then
    let p ← b.get paragraphK
    let rich ← p.get richTextK
    let s ← richTextToMarkdown rich
    pure [s]
  else if tv.isStrEq heading1K then
    let p ← b.get heading1K
    let rich ← p.get richTextK
    let s ← richTextToMarkdown rich
    pure [h1Mark ++ s]
  else if tv.isStrEq heading2K then
    let p ← b.get heading2K
    let rich ← p.get richTextK
    let s ← richTextToMarkdown rich
    pure [h2Mark ++ s]
  else if tv.isStrEq heading3K then
    let p ← b.get heading3K
    let rich ← p.get richTextK
    let s ← richTextToMarkdown rich
    pure [h3Mark ++ s]
  else if tv.isStrEq bulletedK then
    let p ← b.get bulletedK
    let rich ← p.get richTextK
    let s ← richTextToMarkdown rich
    pure [bulletDash ++ s]
  else if tv.isStrEq numberedK then
    let p ← b.get numberedK
    let rich ← p.get richTextK
    let s ← richTextToMarkdown rich
    pure [numberedOne ++ s]
  else if tv.isStrEq toDoK then
    let todo ← b.get toDoK
    let checkedv ← todo.get checkedK
    let mark := if checkedv.truthy then todoChecked else todoUnchecked
    let rich ← todo.get richTextK
    let s ← richTextToMarkdown rich
    pure [mark ++ s]
  else if tv.isStrEq quoteK then
    let p ← b.get quoteK
    let rich ← p.get richTextK
    let s ← richTextToMarkdown rich
    pure [quoteMark ++ s]
  else if tv.isStrEq codeK then
    let codev ← b.get codeK
    let langv ← codev.get languageK
    let lang := if langv.truthy then langv.displayStr else []
    let rich ← codev.get richTextK
    let s ← richTextToMarkdown rich
    pure [fence3 ++ lang, s, fence3]
  else if tv.isStrEq dividerK then
    pure [dividerDash]
  else
    let v1 ← b.get tv.displayStr
    if v1.truthy then
      let rt ← v1.get richTextK
      if rt.truthy then
        let s ← richTextToMarkdown rt
        pure [s]
      else pure []
    else pure []

/-- `blocksToMarkdown`: push the per-block lines into one list and join it
with a blank line (`'\n\n'`) between every two consecutive entries. -/
def blocksToMarkdown (blocks : List JVal) : Except Unit Str := do
  let liness ← blocks.mapM blockLines
  pure (List.intercalate ['\n', '\n'] liness.flatten)

/-- The loop body of `blocksToPlainText` for one block: `b.type` and `b[type]`
are plain accesses, `?.rich_text` is an optional chain; a truthy `rich_text`
must be an array — calling `.map` on any other truthy value is a TypeError —
and every run's `rt.text` is again a plain access; the per-run strings
`rt.text?.content || ''` are joined with the empty separator and the resulting
line is kept only when non-empty. -/
def blockPlainLine (b : JVal) : Except Unit (Option Str) := do
  let tv ← b.get typeK
  let blockContent ← b.get tv.displayStr
  let rt := blockContent.getOpt richTextK
  if rt.truthy then
    match rt with
    | .arr items => do
      let parts ← items.mapM (fun r => do
        let textv ← r.get textK
        let contentv := textv.getOpt contentK
        pure (if contentv.truthy then contentv.displayStr else ([] : Str)))
      let text := parts.flatten
      pure (if text.isEmpty then none else some text)
    | _ => .error ()
  else
    pure none

/-- `blocksToPlainText`: the kept lines joined with a single newline. -/
def blocksToPlainText (blocks : List JVal) : Except Unit Str := do
  let lines ← blocks.mapM blockPlainLine
  pure (List.intercalate ['\n'] (lines.filterMap id))

/-! ## The JavaScript value of a typed run / block

The forward pipeline hands its object literals directly to the reverse
pipeline, so the embedding provides the `JVal` image of each literal, field
for field: a plain run is `{type, text: {content}}`, a formatted run is
`{type, text: {content, link: null}, annotations: {flag: true}}`, and a link
run is `{type, text: {content, link: {url}}, annotations: {}}`. -/

def annFields (r : NotionRichText) : List (Str × JVal) :=
  (if r.bold then [(boldK, JVal.bool true)] else []) ++
  (if r.italic then [(italicK, JVal.bool true)] else []) ++
  (if r.strikethrough then [(strikethroughK, JVal.bool true)] else []) ++
  (if r.code then [(codeK, JVal.bool true)] else [])

def NotionRichText.toJVal (r : NotionRichText) : JVal :=
  match r.link with
  | some u =>
    .obj [(typeK, .str textK),
          (textK, .obj [(contentK, .str r.content), (linkK, .obj [(urlK, .str u)])]),
          (annotationsK, .obj (annFields r))]
  | none =>
    if r.bold || r.italic || r.strikethrough || r.code then
      .obj [(typeK, .str textK),
            (textK, .obj [(contentK, .str r.content), (linkK, JVal.nullv)]),
            (annotationsK, .obj (annFields r))]
    else
      .obj [(typeK, .str textK), (textK, .obj [(contentK, .str r.content)])]

def richTextJVal (rs : List NotionRichText) : JVal :=
  .arr (rs.map NotionRichText.toJVal)

def Block.toJVal : Block → JVal
  | .heading1 rs =>
    .obj [(objectK, .str blockK), (typeK, .str heading1K),
          (heading1K, .obj [(richTextK, richTextJVal rs)])]
  | .heading2 rs =>
    .obj [(objectK, .str blockK), (typeK, .str heading2K),
          (heading2K, .obj [(richTextK, richTextJVal rs)])]
  | .heading3 rs =>
    .obj [(objectK, .str blockK), (typeK, .str heading3K),
          (heading3K, .obj [(richTextK, richTextJVal rs)])]
  | .toDo rs checked =>
    .obj [(objectK, .str blockK), (typeK, .str toDoK),
          (toDoK, .obj [(richTextK, richTextJVal rs), (checkedK, .bool checked)])]
  | .bulleted rs =>
    .obj [(objectK, .str blockK), (typeK, .str bulletedK),
          (bulletedK, .obj [(richTextK, richTextJVal rs)])]
  | .numbered rs =>
    .obj [(objectK, .str blockK), (typeK, .str numberedK),
          (numberedK, .obj [(richTextK, richTextJVal rs)])]
  | .quote rs =>
    .obj [(objectK, .str blockK), (typeK, .str quoteK),
          (quoteK, .obj [(richTextK, richTextJVal rs)])]
  | .divider =>
    .obj [(objectK, .str blockK), (typeK, .str dividerK), (dividerK, .obj [])]
  | .paragraph rs =>
    .obj [(objectK, .str blockK), (typeK, .str paragraphK),
          (paragraphK, .obj [(richTextK, richTextJVal rs)])]
  | .code rs lang =>
    .obj [(objectK, .str blockK), (typeK, .str codeK),
          (codeK, .obj [(richTextK, richTextJVal rs), (languageK, .str lang)])]

/-- The composition that claims about round trips and rendering refer to:
the block objects built by `markdownToBlocks` flow into `blocksToMarkdown`
unchanged. -/
def roundTrip (m : Str) : Except Unit Str :=
  blocksToMarkdown ((markdownToBlocks m).map Block.toJVal)

/-! ## Specification-side renderers (typed)

These definitions follow the words of the specification (one markdown segment
per ordinary block, three segments for a code block, run annotations applied
code → bold → italic → strikethrough and the link wrapped outermost); they are
the clean counterparts that the implementation over loose records is proved to
refine. -/

/-- Rendering of one typed run, following the specification's fixed nesting
order; mirroring the implementation's truthiness test, an empty url is not
emitted. -/
def runMdSpec (r : NotionRichText) : Str :=
  let t0 := r.content
  let t1 := if r.code then '`' :: t0 ++ ['`'] else t0
  let t2 := if r.bold then '*' :: '*' :: t1 ++ ['*', '*'] else t1
  let t3 := if r.italic then '*' :: t2 ++ ['*'] else t2
  let t4 := if r.strikethrough then '~' :: '~' :: t3 ++ ['~', '~'] else t3
  match r.link with
  | some u => if u.isEmpty then t4 else '[' :: t4 ++ ']' :: '(' :: u ++ [')']
  | none => t4

def runsMdSpec (rs : List NotionRichText) : Str := (rs.map runMdSpec).flatten

/-- The markdown segments one typed block contributes: a single prefixed line
for the ordinary blocks, and opening fence, raw body and closing fence for a
code block. -/
def blockSegments : Block → List Str
  | .paragraph rs => [runsMdSpec rs]
  | .heading1 rs => [h1Mark ++ runsMdSpec rs]
  | .heading2 rs => [h2Mark ++ runsMdSpec rs]
  | .heading3 rs => [h3Mark ++ runsMdSpec rs]
  | .bulleted rs => [bulletDash ++ runsMdSpec rs]
  | .numbered rs => [numberedOne ++ runsMdSpec rs]
  | .toDo rs checked => [(if checked then todoChecked else todoUnchecked) ++ runsMdSpec rs]
  | .quote rs => [quoteMark ++ runsMdSpec rs]
  | .code rs lang => [fence3 ++ lang, runsMdSpec rs, fence3]
  | .divider => [dividerDash]

/-- The plain-text line one typed block contributes: the concatenated run
contents when the block carries rich text and the concatenation is non-empty
(annotations and links ignored); nothing for a divider or an empty line. -/
def blockPlainSpec : Block → Option Str
  | .divider => none
  | .heading1 rs | .heading2 rs | .heading3 rs | .toDo rs _ | .bulleted rs
  | .numbered rs | .quote rs | .paragraph rs | .code rs _ =>
    let text := (rs.map NotionRichText.content).flatten
    if text.isEmpty then none else some text

/-! ## Auxiliary definitions used by the statements below -/

/-- The leftmost match of one construct in the remaining suffix. -/
def matchOf (a : Ann) (s : Str) : Option (Nat × Str × Option Str × Str) :=
  firstMatch (patOf a) s

/-- Invariant of the candidate-selection loop after the constructs in `L`
have been examined: an empty accumulator means none of them matches, and a
filled accumulator holds the match of one of them, with the smallest match
index among them, strictly smaller than the index of every construct examined
earlier in the loop order. -/
def SelInv (s : Str) (L : List Ann) (acc : Option InlineMatch) : Prop :=
  (acc = none → ∀ a ∈ L, matchOf a s = none) ∧
  (∀ m, acc = some m →
    m.ann ∈ L ∧
    matchOf m.ann s = some (m.index, m.content, m.url, m.rest) ∧
    ∀ a ∈ L, ∀ i content url rest, matchOf a s = some (i, content, url, rest) →
      m.index ≤ i ∧ (annOrder a < annOrder m.ann → m.index < i))

/-- Concatenation of the `content` fields of a run sequence. -/
def concatContents (rs : List NotionRichText) : Str :=
  (rs.map NotionRichText.content).flatten

/-- A character with no role in any inline pattern, line marker or trimming:
not whitespace and none of the delimiter/marker characters. -/
def plainChar (c : Char) : Bool :=
  !isJsWhitespace c && c != '*' && c != '~' && c != '`' && c != '[' &&
    c != ']' && c != '(' && c != ')' && c != '#' && c != '-' && c != '>' &&
    c != '.' && c != '_'

def plainStr (s : Str) : Bool := s.all plainChar

/-- The six inline shapes of the round-trip class: plain text and the five
supported single-annotation constructs. -/
inductive Wrap where
  | plainW | boldW | italicW | strikeW | codeW | linkW
deriving DecidableEq, Repr

/-- The markdown text of one inline shape with inner text `t` (and url `u`
for links). -/
def wrapOf : Wrap → Str → Str → Str
  | .plainW, t, _ => t
  | .boldW, t, _ => '*' :: '*' :: t ++ ['*', '*']
  | .italicW, t, _ => '*' :: t ++ ['*']
  | .strikeW, t, _ => '~' :: '~' :: t ++ ['~', '~']
  | .codeW, t, _ => '`' :: t ++ ['`']
  | .linkW, t, u => '[' :: t ++ ']' :: '(' :: u ++ [')']

/-- The run the scanner produces for one inline shape. -/
def runOf : Wrap → Str → Str → NotionRichText
  | .plainW, t, _ => mkPlain t
  | .boldW, t, _ => { content := t, bold := true }
  | .italicW, t, _ => { content := t, italic := true }
  | .strikeW, t, _ => { content := t, strikethrough := true }
  | .codeW, t, _ => { content := t, code := true }
  | .linkW, t, u => { content := t, link := some u }

/-- The line markers whose serialized form coincides with their source form
(every other marker is re-serialized differently: `* ` becomes `- `,
`2.` becomes `1.`, `***` and `___` become `---`). -/
def canonicalMarkers : List Str :=
  [[], h1Mark, h2Mark, h3Mark, bulletDash, numberedOne, quoteMark,
    todoUnchecked, todoChecked]

/-- The typed block built for a canonical marker. -/
def blockOfMarker (mk : Str) (rs : List NotionRichText) : Block :=
  if mk = h1Mark then .heading1 rs
  else if mk = h2Mark then .heading2 rs
  else if mk = h3Mark then .heading3 rs
  else if mk = bulletDash then .bulleted rs
  else if mk = numberedOne then .numbered rs
  else if mk = quoteMark then .quote rs
  else if mk = todoUnchecked then .toDo rs false
  else if mk = todoChecked then .toDo rs true
  else .paragraph rs

/-- Is a value's `rich_text`, when it is an array, free of nullish runs?
(`richTextToMarkdown` maps over such an array and dereferences `rt.text` on
every element.) -/
def safeRichTextVal : JVal → Bool
  | .arr xs => xs.all (fun x => !x.isNullish)
  | _ => true

/-- The payload key of the recognized block types that `blocksToMarkdown`
dereferences without a guard. -/
def knownKey (tv : JVal) : Option Str :=
  if tv.isStrEq paragraphK then some paragraphK
  else if tv.isStrEq heading1K then some heading1K
  else if tv.isStrEq heading2K then some heading2K
  else if tv.isStrEq heading3K then some heading3K
  else if tv.isStrEq bulletedK then some bulletedK
  else if tv.isStrEq numberedK then some numberedK
  else if tv.isStrEq toDoK then some toDoK
  else if tv.isStrEq quoteK then some quoteK
  else if tv.isStrEq codeK then some codeK
  else none

/-- A block record `blocksToMarkdown` can render without a TypeError: not
itself nullish; if its type is a recognized payload-carrying one, the payload
field is present (not `undefined`/`null`) and its `rich_text`, when an array,
contains no nullish runs; for unrecognized types the same condition on the
probed `b[type]` value. -/
def safeBlock (b : JVal) : Bool :=
  !b.isNullish &&
    (let tv := b.lookupKey typeK
     match knownKey tv with
     | some key =>
       let p := b.lookupKey key
       !p.isNullish && safeRichTextVal (p.lookupKey richTextK)
     | none =>
       tv.isStrEq dividerK ||
         (let v1 := b.lookupKey tv.displayStr
          !v1.truthy || safeRichTextVal (v1.lookupKey richTextK)))

def exceptOk {α : Type} : Except Unit α → Bool
  | .ok _ => true
  | .error _ => false

/-! ## Consumption lemmas: the scanning loop makes progress

Each selected match consumes at least its opening delimiter, captured content
and closing delimiter, so the suffix left after a match is strictly shorter
than the string scanned.  These lemmas justify the fuel used to drive the
loop (`parseLoopF_fuel`). -/

theorem lazyClose2_rest_lt {d : Char} {s content rest : Str}
    (h : lazyClose2 d s = some (content, rest)) : rest.length < s.length := by
  induction s generalizing content with
  | nil => simp [lazyClose2] at h
  | cons c cs ih =>
    rw [lazyClose2] at h
    split at h
    · exact absurd h (by simp)
    · split at h
      · obtain ⟨rfl, rfl⟩ : [c] = content ∧ cs.drop 2 = rest := by
          simpa using h
        have := List.length_drop 2 cs
        simp; omega
      · revert h
        match h2 : lazyClose2 d cs with
        | none => intro h; exact absurd h (by simp)
        | some (content2, rest2) =>
          intro h
          obtain ⟨rfl, rfl⟩ : c :: content2 = content ∧ rest2 = rest := by
            simpa using h
          have := ih h2
          simp; omega

theorem lazyClose1_rest_lt {d : Char} {s content rest : Str}
    (h : lazyClose1 d s = some (content, rest)) : rest.length < s.length := by
  induction s generalizing content with
  | nil => simp [lazyClose1] at h
  | cons c cs ih =>
    rw [lazyClose1] at h
    split at h
    · exact absurd h (by simp)
    · split at h
      · obtain ⟨rfl, rfl⟩ : [c] = content ∧ cs.drop 1 = rest := by
          simpa using h
        have := List.length_drop 1 cs
        simp; omega
      · revert h
        match h2 : lazyClose1 d cs with
        | none => intro h; exact absurd h (by simp)
        | some (content2, rest2) =>
          intro h
          obtain ⟨rfl, rfl⟩ : c :: content2 = content ∧ rest2 = rest := by
            simpa using h
          have := ih h2
          simp; omega

theorem boldAt_rest_lt {s content url rest}
    (h : boldAt s = some (content, url, rest)) : rest.length < s.length := by
  match s with
  | [] => simp [boldAt] at h
  | [c] => simp [boldAt] at h
  | c1 :: c2 :: r =>
    rw [boldAt] at h
    split at h
    · obtain ⟨⟨cnt, rst⟩, h1, h2⟩ := Option.map_eq_some'.mp h
      obtain ⟨rfl, rfl, rfl⟩ : cnt = content ∧ (none : Option Str) = url ∧ rst = rest := by
        simpa using h2
      have := lazyClose2_rest_lt h1
      simp; omega
    · exact absurd h (by simp)

theorem strikeAt_rest_lt {s content url rest}
    (h : strikeAt s = some (content, url, rest)) : rest.length < s.length := by
  match s with
  | [] => simp [strikeAt] at h
  | [c] => simp [strikeAt] at h
  | c1 :: c2 :: r =>
    rw [strikeAt] at h
    split at h
    · obtain ⟨⟨cnt, rst⟩, h1, h2⟩ := Option.map_eq_some'.mp h
      obtain ⟨rfl, rfl, rfl⟩ : cnt = content ∧ (none : Option Str) = url ∧ rst = rest := by
        simpa using h2
      have := lazyClose2_rest_lt h1
      simp; omega
    · exact absurd h (by simp)

theorem italicAt_rest_lt {s content url rest}
    (h : italicAt s = some (content, url, rest)) : rest.length < s.length := by
  match s with
  | [] => simp [italicAt] at h
  | c :: r =>
    rw [italicAt] at h
    split at h
    · obtain ⟨⟨cnt, rst⟩, h1, h2⟩ := Option.map_eq_some'.mp h
      obtain ⟨rfl, rfl, rfl⟩ : cnt = content ∧ (none : Option Str) = url ∧ rst = rest := by
        simpa using h2
      have := lazyClose1_rest_lt h1
      simp; omega
    · exact absurd h (by simp)

theorem codeAt_rest_lt {s content url rest}
    (h : codeAt s = some (content, url, rest)) : rest.length < s.length := by
  match s with
  | [] => simp [codeAt] at h
  | c :: r =>
    rw [codeAt] at h
    split at h
    · obtain ⟨⟨cnt, rst⟩, h1, h2⟩ := Option.map_eq_some'.mp h
      obtain ⟨rfl, rfl, rfl⟩ : cnt = content ∧ (none : Option Str) = url ∧ rst = rest := by
        simpa using h2
      have := lazyClose1_rest_lt h1
      simp; omega
    · exact absurd h (by simp)

theorem linkAt_rest_lt {s content url rest}
    (h : linkAt s = some (content, url, rest)) : rest.length < s.length := by
  match s with
  | [] => simp [linkAt] at h
  | c :: r =>
    rw [linkAt] at h
    split at h
    · simp only [] at h
      split at h
      · exact absurd h (by simp)
      · revert h
        split
        next r2 heq =>
          intro h
          split at h
          · exact absurd h (by simp)
          · revert h
            split
            next tail heq2 =>
              intro h
              obtain ⟨rfl, rfl, rfl⟩ :
                  (r.takeWhile (fun d => d != ']')) = content ∧
                    some (r2.takeWhile (fun d => d != ')')) = url ∧ tail = rest := by
                simpa using h
              have l1 : r2.length + 2 ≤ r.length := by
                have := congrArg List.length heq
                simp [List.length_drop] at this
                omega
              have l2 : tail.length + 1 ≤ r2.length := by
                have := congrArg List.length heq2
                simp [List.length_drop] at this
                omega
              simp; omega
            next => intro h; exact absurd h (by simp)
        next => intro h; exact absurd h (by simp)
    · exact absurd h (by simp)

theorem firstMatch_rest_lt {p : Str → Option (Str × Option Str × Str)}
    (hp : ∀ s content url rest, p s = some (content, url, rest) → rest.length < s.length)
    {s : Str} {i : Nat} {content url rest}
    (h : firstMatch p s = some (i, content, url, rest)) : rest.length < s.length := by
  induction s generalizing i with
  | nil => simp [firstMatch] at h
  | cons c cs ih =>
    rw [firstMatch] at h
    revert h
    split
    next content2 url2 rest2 heq =>
      intro h
      obtain ⟨rfl, rfl, rfl, rfl⟩ :
          (0 : Nat) = i ∧ content2 = content ∧ url2 = url ∧ rest2 = rest := by
        simpa using h
      exact hp _ _ _ _ heq
    next =>
      intro h
      revert h
      split
      next i2 content2 url2 rest2 heq =>
        intro h
        obtain ⟨rfl, rfl, rfl, rfl⟩ :
            i2 + 1 = i ∧ content2 = content ∧ url2 = url ∧ rest2 = rest := by
          simpa using h
        have := ih heq
        simp; omega
      next => intro h; exact absurd h (by simp)

theorem updEarliest_rest_lt {s : Str} {acc : Option InlineMatch} {a : Ann}
    {f : Option (Nat × Str × Option Str × Str)}
    (hacc : ∀ m, acc = some m → m.rest.length < s.length)
    (hfm : ∀ i content url rest, f = some (i, content, url, rest) → rest.length < s.length) :
    ∀ m, updEarliest acc a f = some m → m.rest.length < s.length := by
  intro m h
  match f, hfm with
  | none, _ =>
    simp only [updEarliest] at h
    exact hacc m h
  | some (i, content, url, rest), hfm =>
    match acc, hacc with
    | none, _ =>
      simp only [updEarliest] at h
      have h2 := Option.some.inj h
      rw [← h2]
      exact hfm i content url rest rfl
    | some m2, hacc =>
      simp only [updEarliest] at h
      split at h
      · have h2 := Option.some.inj h
        rw [← h2]
        exact hfm i content url rest rfl
      · have h2 := Option.some.inj h
        rw [← h2]
        exact hacc m2 rfl

theorem pickEarliest_rest_lt {s : Str} {m : InlineMatch}
    (h : pickEarliest s = some m) : m.rest.length < s.length := by
  have h0 : ∀ m', (none : Option InlineMatch) = some m' → m'.rest.length < s.length := by
    intro m' hm'; exact absurd hm' (by simp)
  refine updEarliest_rest_lt (f := firstMatch linkAt s)
    (updEarliest_rest_lt (f := firstMatch codeAt s)
      (updEarliest_rest_lt (f := firstMatch strikeAt s)
        (updEarliest_rest_lt (f := firstMatch italicAt s)
          (updEarliest_rest_lt (f := firstMatch boldAt s) h0 ?_) ?_) ?_) ?_) ?_ m h
  · intro i content url rest hh; exact firstMatch_rest_lt (fun _ _ _ _ => boldAt_rest_lt) hh
  · intro i content url rest hh; exact firstMatch_rest_lt (fun _ _ _ _ => italicAt_rest_lt) hh
  · intro i content url rest hh; exact firstMatch_rest_lt (fun _ _ _ _ => strikeAt_rest_lt) hh
  · intro i content url rest hh; exact firstMatch_rest_lt (fun _ _ _ _ => codeAt_rest_lt) hh
  · intro i content url rest hh; exact firstMatch_rest_lt (fun _ _ _ _ => linkAt_rest_lt) hh

theorem parseLoopF_nil : ∀ f, parseLoopF f [] = [] := by
  intro f; cases f <;> rfl

/-- Fuel irrelevance: any fuel exceeding the length of the input drives the
scanning loop to the same result, so `parseInlineFormatting`'s fuel of
`length + 1` computes the limit of the source's unbounded `while` loop. -/
theorem parseLoopF_fuel (n : Nat) :
    ∀ s : Str, s.length ≤ n → ∀ f g, s.length < f → s.length < g →
      parseLoopF f s = parseLoopF g s := by
  induction n with
  | zero =>
    intro s hs f g hf hg
    have : s = [] := List.length_eq_zero.mp (Nat.le_zero.mp hs)
    subst this
    rw [parseLoopF_nil, parseLoopF_nil]
  | succ n ih =>
    intro s hs f g hf hg
    match f, g with
    | f + 1, g + 1 =>
      match s with
      | [] => rw [parseLoopF_nil, parseLoopF_nil]
      | c :: cs =>
        rw [parseLoopF, parseLoopF]
        cases hp : pickEarliest (c :: cs) with
        | none => simp
        | some m =>
          have hlt := pickEarliest_rest_lt hp
          have : m.rest.length ≤ n := by
            simp at hlt hs ⊢; omega
          simp only []
          rw [ih m.rest this f g (by simp at hlt hf ⊢; omega) (by simp at hlt hg ⊢; omega)]

/-! ## The candidate-selection order of the scanner -/

theorem SelInv_step {s : Str} {L : List Ann} {acc : Option InlineMatch} {a : Ann}
    (hinv : SelInv s L acc)
    (hord : ∀ b ∈ L, annOrder b < annOrder a) :
    SelInv s (L ++ [a]) (updEarliest acc a (matchOf a s)) := by
  obtain ⟨hnone, hsome⟩ := hinv
  cases hfm : matchOf a s with
  | none =>
    constructor
    · intro h b hb
      simp only [updEarliest] at h
      rcases List.mem_append.mp hb with hb | hb
      · exact hnone h b hb
      · simp only [List.mem_singleton] at hb; subst hb; exact hfm
    · intro m h
      simp only [updEarliest] at h
      obtain ⟨hmem, hmatch, hmin⟩ := hsome m h
      refine ⟨List.mem_append_left _ hmem, hmatch, ?_⟩
      intro b hb i content url rest hm
      rcases List.mem_append.mp hb with hb | hb
      · exact hmin b hb i content url rest hm
      · simp only [List.mem_singleton] at hb; subst hb
        rw [hfm] at hm; exact absurd hm (by simp)
  | some q =>
    obtain ⟨i0, c0, u0, r0⟩ := q
    cases acc with
    | none =>
      have hall := hnone rfl
      constructor
      · intro h
        simp only [updEarliest] at h
        exact absurd h (by simp)
      · intro m h
        simp only [updEarliest] at h
        have h2 := Option.some.inj h
        subst h2
        refine ⟨List.mem_append_right _ (by simp), hfm, ?_⟩
        intro b hb i content url rest hm
        rcases List.mem_append.mp hb with hb | hb
        · rw [hall b hb] at hm; exact absurd hm (by simp)
        · simp only [List.mem_singleton] at hb; subst hb
          rw [hfm] at hm
          have hi : i0 = i := congrArg Prod.fst (Option.some.inj hm)
          dsimp only
          exact ⟨by omega, fun hlt => absurd hlt (by simp)⟩
    | some m2 =>
      obtain ⟨hmem2, hmatch2, hmin2⟩ := hsome m2 rfl
      simp only [updEarliest] at *
      split
      next hlt =>
        constructor
        · intro h; exact absurd h (by simp)
        · intro m h
          have h2 := Option.some.inj h
          subst h2
          refine ⟨List.mem_append_right _ (by simp), hfm, ?_⟩
          intro b hb i content url rest hm
          rcases List.mem_append.mp hb with hb | hb
          · have := (hmin2 b hb i content url rest hm).1
            dsimp only
            exact ⟨by omega, fun _ => by omega⟩
          · simp only [List.mem_singleton] at hb; subst hb
            rw [hfm] at hm
            have hi : i0 = i := congrArg Prod.fst (Option.some.inj hm)
            dsimp only
            exact ⟨by omega, fun hc => absurd hc (by simp)⟩
      next hge =>
        constructor
        · intro h; exact absurd h (by simp)
        · intro m h
          have h2 := Option.some.inj h
          subst h2
          refine ⟨List.mem_append_left _ hmem2, hmatch2, ?_⟩
          intro b hb i content url rest hm
          rcases List.mem_append.mp hb with hb | hb
          · exact hmin2 b hb i content url rest hm
          · simp only [List.mem_singleton] at hb; subst hb
            rw [hfm] at hm
            have hi : i0 = i := congrArg Prod.fst (Option.some.inj hm)
            have hbound := hord m2.ann hmem2
            exact ⟨by omega, fun hc => absurd hc (by omega)⟩

theorem pickEarliest_SelInv (s : Str) :
    SelInv s [.bold, .italic, .strikethrough, .code, .link] (pickEarliest s) := by
  have h0 : SelInv s [] none := by
    constructor
    · intro _ a ha; simp at ha
    · intro m h; exact absurd h (by simp)
  have h1 := SelInv_step (a := .bold) h0 (by intro b hb; simp at hb)
  have h2 := SelInv_step (a := .italic) h1
    (by intro b hb; simp at hb; subst hb; decide)
  have h3 := SelInv_step (a := .strikethrough) h2
    (by intro b hb; simp at hb; rcases hb with rfl | rfl <;> decide)
  have h4 := SelInv_step (a := .code) h3
    (by intro b hb; simp at hb; rcases hb with rfl | rfl | rfl <;> decide)
  have h5 := SelInv_step (a := .link) h4
    (by intro b hb; simp at hb; rcases hb with rfl | rfl | rfl | rfl <;> decide)
  simpa [matchOf, patOf, pickEarliest] using h5

/-! ## Basic facts about the scanning loop -/

theorem parseInlineFormatting_no_match {s : Str} (h : pickEarliest s = none) :
    parseInlineFormatting s = [mkPlain s] := by
  cases s with
  | nil => rfl
  | cons c cs =>
    unfold parseInlineFormatting
    rw [parseLoopF]
    simp only [h]
    simp

/-! ## Claim theorems (first group) -/

/-- C5: at each step of the inline scan, among all five constructs whose
pattern matches somewhere in the unconsumed suffix, the loop selects the one
with the smallest match start index, ties broken by the fixed order bold,
italic, strikethrough, code, link; in particular `parseInlineFormatting`
applied to `"**bold**"` yields a single run with content `"bold"` annotated
bold, not two adjacent italic runs. -/
theorem c5_leftmost_tiebreak :
    (∀ (s : Str) (m : InlineMatch), pickEarliest s = some m →
      matchOf m.ann s = some (m.index, m.content, m.url, m.rest) ∧
      (∀ a i content url rest, matchOf a s = some (i, content, url, rest) →
        m.index ≤ i) ∧
      (∀ a i content url rest, matchOf a s = some (i, content, url, rest) →
        annOrder a < annOrder m.ann → m.index < i)) ∧
    parseInlineFormatting ( "**bold**".data) =
      [{ content := "bold".data, bold := true, italic := false,
         strikethrough := false, code := false, link := none }] := by
  constructor
  · intro s m h
    obtain ⟨-, hsome⟩ := pickEarliest_SelInv s
    obtain ⟨-, hmatch, hmin⟩ := hsome m h
    refine ⟨hmatch, ?_, ?_⟩
    · intro a i content url rest hm
      exact (hmin a (by cases a <;> simp) i content url rest hm).1
    · intro a i content url rest hm hlt
      exact (hmin a (by cases a <;> simp) i content url rest hm).2 hlt
  · decide

/-- C5 witness: the selection property instantiated at the input `"*a*"`,
where the scan selects the italic match at index 0. -/
theorem c5_leftmost_tiebreak_witness :
    pickEarliest ( "*a*".data) = some ⟨0, ['a'], .italic, none, []⟩ ∧
    matchOf Ann.italic ( "*a*".data) = some (0, ['a'], none, []) ∧
    (∀ a i content url rest,
      matchOf a ( "*a*".data) = some (i, content, url, rest) → 0 ≤ i) := by
  refine ⟨by decide, ?_, ?_⟩
  · exact (c5_leftmost_tiebreak.1 ( "*a*".data) ⟨0, ['a'], .italic, none, []⟩
      (by decide)).1
  · intro a i content url rest hm
    exact (c5_leftmost_tiebreak.1 ( "*a*".data) ⟨0, ['a'], .italic, none, []⟩
      (by decide)).2.1 a i content url rest hm

/-- C10: `parseInlineFormatting` always returns a non-empty run sequence, and
on the empty string it returns exactly one run with empty content, no
annotation and no link. -/
theorem c10_nonempty_output :
    (∀ s : Str, parseInlineFormatting s ≠ []) ∧
    parseInlineFormatting [] =
      [{ content := [], bold := false, italic := false, strikethrough := false,
         code := false, link := none }] := by
  constructor
  · intro s
    unfold parseInlineFormatting
    by_cases h : (parseLoopF (s.length + 1) s).isEmpty
    · simp [h]
    · simp only [h, if_false]
      simpa using h
  · rfl

/-- C1 counterexample: on the input `"**b**"` the scanner captures only the
inner text of the bold construct, so the concatenated run contents are `"b"`,
not the input. -/
theorem c1_counterexample :
    concatContents (parseInlineFormatting ( "**b**".data)) = ['b'] ∧
    concatContents (parseInlineFormatting ( "**b**".data)) ≠ "**b**".data := by
  constructor
  · decide
  · decide

/-- C1 amended: concatenating the run contents reconstructs the input exactly
on the strings in which no inline pattern matches (on a match, the delimiter
characters — and for links the url part — are dropped from the contents). -/
theorem c1_content_preservation_no_match :
    ∀ s : Str, pickEarliest s = none →
      concatContents (parseInlineFormatting s) = s := by
  intro s h
  rw [parseInlineFormatting_no_match h]
  simp [concatContents, mkPlain]

/-- C1 witness: the amended claim at the plain input `"hello"`. -/
theorem c1_content_preservation_no_match_witness :
    pickEarliest ( "hello".data) = none ∧
    concatContents (parseInlineFormatting ( "hello".data)) = "hello".data :=
  ⟨by decide, c1_content_preservation_no_match ( "hello".data) (by decide)⟩

/-! ## Prefix and trimming facts -/

theorem startsWith_append_self : ∀ (p s : Str), startsWith (p ++ s) p = true := by
  intro p
  induction p with
  | nil => intro s; cases s <;> rfl
  | cons c cs ih => intro s; simp [startsWith, ih]

theorem startsWith_cons_ne {c p : Char} {cs ps : Str} (h : c ≠ p) :
    startsWith (c :: cs) (p :: ps) = false := by
  simp [startsWith, h]

theorem trim_eq_self {s : Str}
    (h1 : ∀ c, s.head? = some c → isJsWhitespace c = false)
    (h2 : ∀ c, s.getLast? = some c → isJsWhitespace c = false) : trim s = s := by
  unfold trim
  have e1 : s.dropWhile isJsWhitespace = s := by
    cases s with
    | nil => rfl
    | cons a l =>
      rw [List.dropWhile_cons, h1 a rfl]
      simp
  rw [e1]
  have e2 : s.reverse.dropWhile isJsWhitespace = s.reverse := by
    cases hr : s.reverse with
    | nil => rfl
    | cons a l =>
      have : s.getLast? = some a := by
        rw [← List.head?_reverse, hr]; rfl
      rw [List.dropWhile_cons, h2 a this]
      simp
  rw [e2, List.reverse_reverse]

/-! ## Claim theorems: line classification -/

/-- C7: a trimmed line beginning `"### "` is classified as `heading_3`, one
beginning `"## "` as `heading_2`, and one beginning `"# "` as `heading_1`;
the marker includes its trailing space, so a line with more hashes never
satisfies a lower level's marker test. -/
theorem c7_heading_levels :
    (∀ line t, trim line = h3Mark ++ t →
      lineToBlock line = some (.heading3 (parseInlineFormatting t))) ∧
    (∀ line t, trim line = h2Mark ++ t →
      lineToBlock line = some (.heading2 (parseInlineFormatting t))) ∧
    (∀ line t, trim line = h1Mark ++ t →
      lineToBlock line = some (.heading1 (parseInlineFormatting t))) := by
  refine ⟨?_, ?_, ?_⟩ <;> intro line t h <;>
    simp [lineToBlock, h, startsWith, h1Mark, h2Mark, h3Mark]

/-- C7 witness: the three heading levels at the concrete lines `"### H"`,
`"## H"`, `"# H"`. -/
theorem c7_heading_levels_witness :
    (trim ( "### H".data) = h3Mark ++ ['H'] ∧
      lineToBlock ( "### H".data) = some (.heading3 (parseInlineFormatting ['H']))) ∧
    (trim ( "## H".data) = h2Mark ++ ['H'] ∧
      lineToBlock ( "## H".data) = some (.heading2 (parseInlineFormatting ['H']))) ∧
    (trim ( "# H".data) = h1Mark ++ ['H'] ∧
      lineToBlock ( "# H".data) = some (.heading1 (parseInlineFormatting ['H']))) :=
  ⟨⟨by decide, c7_heading_levels.1 _ ['H'] (by decide)⟩,
   ⟨by decide, c7_heading_levels.2.1 _ ['H'] (by decide)⟩,
   ⟨by decide, c7_heading_levels.2.2 _ ['H'] (by decide)⟩⟩

/-- C8: a trimmed line beginning `"- [ ] "` is classified as an unchecked
`to_do`, one beginning `"- [x] "` as a checked `to_do`, and such a line is
never classified as a `bulleted_list_item` (the checkbox tests run before the
generic bullet test). -/
theorem c8_todo_markers :
    (∀ line t, trim line = todoUnchecked ++ t →
      lineToBlock line = some (.toDo (parseInlineFormatting t) false)) ∧
    (∀ line t, trim line = todoChecked ++ t →
      lineToBlock line = some (.toDo (parseInlineFormatting t) true)) ∧
    (∀ line t rs,
      trim line = todoUnchecked ++ t ∨ trim line = todoChecked ++ t →
      lineToBlock line ≠ some (.bulleted rs)) := by
  have hu : ∀ line t, trim line = todoUnchecked ++ t →
      lineToBlock line = some (.toDo (parseInlineFormatting t) false) := by
    intro line t h
    simp [lineToBlock, h, startsWith, h1Mark, h2Mark, h3Mark, todoUnchecked,
      todoChecked]
  have hc : ∀ line t, trim line = todoChecked ++ t →
      lineToBlock line = some (.toDo (parseInlineFormatting t) true) := by
    intro line t h
    simp [lineToBlock, h, startsWith, h1Mark, h2Mark, h3Mark, todoUnchecked,
      todoChecked]
  refine ⟨hu, hc, ?_⟩
  intro line t rs h
  rcases h with h | h
  · rw [hu line t h]; simp
  · rw [hc line t h]; simp

/-- C8 witness: the checkbox lines `"- [ ] a"` and `"- [x] a"`. -/
theorem c8_todo_markers_witness :
    (trim ( "- [ ] a".data) = todoUnchecked ++ ['a'] ∧
      lineToBlock ( "- [ ] a".data) =
        some (.toDo (parseInlineFormatting ['a']) false)) ∧
    (trim ( "- [x] a".data) = todoChecked ++ ['a'] ∧
      lineToBlock ( "- [x] a".data) =
        some (.toDo (parseInlineFormatting ['a']) true)) :=
  ⟨⟨by decide, c8_todo_markers.1 _ ['a'] (by decide)⟩,
   ⟨by decide, c8_todo_markers.2.1 _ ['a'] (by decide)⟩⟩

/-! ## Splitting and joining lines -/

theorem intercalate_singleton (sep : Str) (a : Str) :
    List.intercalate sep [a] = a := by
  simp [List.intercalate]

theorem intercalate_cons₂ (sep : Str) (a b : Str) (rest : List Str) :
    List.intercalate sep (a :: b :: rest) = a ++ sep ++ List.intercalate sep (b :: rest) := by
  simp [List.intercalate]

theorem splitLines_no_nl {l : Str} (h : '\n' ∉ l) : splitLines l = [l] := by
  induction l with
  | nil => rfl
  | cons c cs ih =>
    have hc : c ≠ '\n' := fun hh => h (hh ▸ List.mem_cons_self c cs)
    have hcs : '\n' ∉ cs := fun hh => h (List.mem_cons_of_mem c hh)
    rw [splitLines, if_neg hc, ih hcs]

theorem splitLines_append_nl {l : Str} (s : Str) (h : '\n' ∉ l) :
    splitLines (l ++ '\n' :: s) = l :: splitLines s := by
  induction l with
  | nil => simp [splitLines]
  | cons c cs ih =>
    have hc : c ≠ '\n' := fun hh => h (hh ▸ List.mem_cons_self c cs)
    have hcs : '\n' ∉ cs := fun hh => h (List.mem_cons_of_mem c hh)
    rw [List.cons_append, splitLines, if_neg hc, ih hcs]

theorem splitLines_intercalate :
    ∀ ls : List Str, ls ≠ [] → (∀ l ∈ ls, '\n' ∉ l) →
      splitLines (List.intercalate ['\n'] ls) = ls := by
  intro ls
  induction ls with
  | nil => intro h; exact absurd rfl h
  | cons a rest ih =>
    intro _ hmem
    cases rest with
    | nil =>
      rw [intercalate_singleton]
      exact splitLines_no_nl (hmem a (by simp))
    | cons b rest2 =>
      rw [intercalate_cons₂, List.append_assoc, List.singleton_append,
        splitLines_append_nl _ (hmem a (by simp))]
      rw [ih (by simp) (fun l hl => hmem l (List.mem_cons_of_mem a hl))]

/-! ## The fence-splitting fold -/

theorem foldl_fenceStep_text {ls : List Str} :
    ∀ st : FenceState, st.inCodeBlock = false →
      (∀ l ∈ ls, startsWith l fence3 = false) →
      ls.foldl fenceStep st =
        { st with textContent := st.textContent ++ ls } := by
  induction ls with
  | nil => intro st _ _; simp
  | cons l ls ih =>
    intro st hst hmem
    rw [List.foldl_cons]
    have hf : startsWith l fence3 = false := hmem l (by simp)
    have hstep : fenceStep st l = { st with textContent := st.textContent ++ [l] } := by
      rw [fenceStep, hf]
      simp [hst]
    rw [hstep, ih _ (by simp [hst]) (fun l2 hl2 => hmem l2 (List.mem_cons_of_mem l hl2))]
    simp

theorem foldl_fenceStep_code {ls : List Str} :
    ∀ st : FenceState, st.inCodeBlock = true →
      (∀ l ∈ ls, startsWith l fence3 = false) →
      ls.foldl fenceStep st =
        { st with codeContent := st.codeContent ++ ls } := by
  induction ls with
  | nil => intro st _ _; simp
  | cons l ls ih =>
    intro st hst hmem
    rw [List.foldl_cons]
    have hf : startsWith l fence3 = false := hmem l (by simp)
    have hstep : fenceStep st l = { st with codeContent := st.codeContent ++ [l] } := by
      rw [fenceStep, hf]
      simp [hst]
    rw [hstep, ih _ (by simp [hst]) (fun l2 hl2 => hmem l2 (List.mem_cons_of_mem l hl2))]
    simp

theorem orPlainText_isEmpty_false (x : Str) : (orPlainText x).isEmpty = false := by
  cases x <;> simp [orPlainText, plainTextLang]

/-- C6: a markdown input whose final code fence is opened but never closed
still emits the accumulated fenced lines as one `code` block at the end of the
output, holding the joined lines and the language captured at the opening
marker (`"plain text"` when the marker carries no tag).  The input is
presented as its list of lines: a prefix that leaves the splitter outside a
fence, the opening fence line with its tag, and the accumulated body lines
with no closing marker before end of input. -/
theorem c6_unterminated_fence :
    ∀ (pre : List Str) (tag : Str) (body : List Str),
      (∀ l ∈ pre, startsWith l fence3 = false ∧ '\n' ∉ l) →
      (∀ l ∈ body, startsWith l fence3 = false ∧ '\n' ∉ l) →
      '\n' ∉ tag → body ≠ [] →
      markdownToBlocks (List.intercalate ['\n'] (pre ++ (fence3 ++ tag) :: body)) =
        (if pre.isEmpty then [] else pre.filterMap lineToBlock) ++
          [Block.code [mkPlain (List.intercalate ['\n'] body)] (orPlainText (trim tag))] := by
  intro pre tag body hpre hbody htag hb
  obtain ⟨b0, body', rfl⟩ := List.exists_cons_of_ne_nil hb
  have hlines : splitLines (List.intercalate ['\n'] (pre ++ (fence3 ++ tag) :: b0 :: body')) =
      pre ++ (fence3 ++ tag) :: b0 :: body' := by
    apply splitLines_intercalate
    · simp
    · intro l hl
      rcases List.mem_append.mp hl with h | h
      · exact (hpre l h).2
      · rcases List.mem_cons.mp h with rfl | h
        · intro hnl
          rcases List.mem_append.mp hnl with h2 | h2
          · revert h2; decide
          · exact htag h2
        · exact (hbody l h).2
  have hdrop : (fence3 ++ tag).drop 3 = tag := rfl
  have h1 : pre.foldl fenceStep fenceInit =
      { inCodeBlock := false, codeContent := [], codeLanguage := [],
        textContent := pre, parts := [] } := by
    rw [foldl_fenceStep_text fenceInit rfl (fun l hl => (hpre l hl).1)]
    rfl
  have h2 : fenceStep
      { inCodeBlock := false, codeContent := [], codeLanguage := [],
        textContent := pre, parts := [] } (fence3 ++ tag) =
      { inCodeBlock := true, codeContent := [], codeLanguage := trim tag,
        textContent := [],
        parts := if pre.isEmpty then [] else [⟨joinNl pre, false, none⟩] } := by
    rw [fenceStep, startsWith_append_self]
    simp [hdrop]
  have h3 : (b0 :: body').foldl fenceStep
      { inCodeBlock := true, codeContent := [], codeLanguage := trim tag,
        textContent := [],
        parts := if pre.isEmpty then [] else [⟨joinNl pre, false, none⟩] } =
      { inCodeBlock := true, codeContent := b0 :: body', codeLanguage := trim tag,
        textContent := [],
        parts := if pre.isEmpty then [] else [⟨joinNl pre, false, none⟩] } := by
    rw [foldl_fenceStep_code _ rfl (fun l hl => (hbody l hl).1)]
    rfl
  have hparts : parseCodeBlocks (List.intercalate ['\n'] (pre ++ (fence3 ++ tag) :: b0 :: body')) =
      (if pre.isEmpty then [] else [⟨joinNl pre, false, none⟩]) ++
        [⟨joinNl (b0 :: body'), true, some (orPlainText (trim tag))⟩] := by
    rw [parseCodeBlocks, hlines, List.foldl_append, h1, List.foldl_cons, h2, h3]
    rfl
  rw [markdownToBlocks, hparts]
  by_cases hp : pre.isEmpty
  · simp only [hp, if_true, List.nil_append, List.foldl_cons, List.foldl_nil]
    simp [orPlainText_isEmpty_false, joinNl]
  · simp only [hp, if_false, List.foldl_append, List.foldl_cons, List.foldl_nil]
    have hpre_ne : pre ≠ [] := by
      intro hh; rw [hh] at hp; exact hp rfl
    have hsplit2 : splitLines (List.intercalate ['\n'] pre) = pre :=
      splitLines_intercalate pre hpre_ne (fun l hl => (hpre l hl).2)
    simp [orPlainText_isEmpty_false, joinNl, hsplit2]

/-- C6 witness: the input `"```js\nconsole"` (an opened, never-closed fence)
produces exactly one code block with body `"console"` and language `"js"`. -/
theorem c6_unterminated_fence_witness :
    ( "```js\nconsole".data = List.intercalate ['\n'] ([] ++ (fence3 ++ "js".data) :: [ "console".data])) ∧
    markdownToBlocks ( "```js\nconsole".data) =
      [Block.code [mkPlain ( "console".data)] ( "js".data)] := by
  refine ⟨by decide, ?_⟩
  have h := c6_unterminated_fence [] ( "js".data) [ "console".data]
    (by intro l hl; simp at hl) (by intro l hl; simp at hl; subst hl; constructor <;> decide)
    (by decide) (by simp)
  rw [show ( "```js\nconsole".data : Str) =
    List.intercalate ['\n'] ([] ++ (fence3 ++ "js".data) :: [ "console".data]) from by decide]
  rw [h]
  decide

/-! ## Refinement of the reverse pipeline over the typed blocks -/

theorem lookupKey_cons (k' k : Str) (v' : JVal) (fs : List (Str × JVal)) :
    (JVal.obj ((k', v') :: fs)).lookupKey k =
      if k' = k then v' else (JVal.obj fs).lookupKey k := by
  by_cases h : k' = k <;> simp [JVal.lookupKey, List.find?, h]

theorem lookupKey_nil (k : Str) : (JVal.obj []).lookupKey k = .undef := rfl

theorem get_of_not_nullish {v : JVal} (h : v.isNullish = false) (k : Str) :
    v.get k = .ok (v.lookupKey k) := by simp [JVal.get, h]

theorem truthy_flag (b : Bool) :
    (if b then JVal.bool true else JVal.undef).truthy = b := by
  cases b <;> rfl

theorem truthy_str (s : Str) : (JVal.str s).truthy = !s.isEmpty := rfl

theorem if_empty_self (s : Str) : (if s = [] then ([] : Str) else s) = s := by
  by_cases h : s = [] <;> simp [h]

theorem str_truthy_display (s : Str) :
    (if (JVal.str s).truthy = true then (JVal.str s).displayStr else []) = s := by
  cases s <;> simp [JVal.truthy, JVal.displayStr]

theorem str_display_or_empty (s : Str) :
    (if s = [] then [] else (JVal.str s).displayStr) = s := by
  by_cases h : s = [] <;> simp [h, JVal.displayStr]

theorem annFields_lookup (r : NotionRichText) :
    (JVal.obj (annFields r)).lookupKey boldK = (if r.bold then .bool true else .undef) ∧
    (JVal.obj (annFields r)).lookupKey italicK = (if r.italic then .bool true else .undef) ∧
    (JVal.obj (annFields r)).lookupKey strikethroughK = (if r.strikethrough then .bool true else .undef) ∧
    (JVal.obj (annFields r)).lookupKey codeK = (if r.code then .bool true else .undef) := by
  by_cases hb : r.bold <;> by_cases hi : r.italic <;>
    by_cases hs : r.strikethrough <;> by_cases hc : r.code <;>
    refine ⟨?_, ?_, ?_, ?_⟩ <;>
    simp [annFields, hb, hi, hs, hc, lookupKey_cons, lookupKey_nil,
      boldK, italicK, strikethroughK, codeK]

theorem runToMarkdown_toJVal (r : NotionRichText) :
    runToMarkdown r.toJVal = .ok (runMdSpec r) := by
  obtain ⟨hb, hi, hs, hc⟩ := annFields_lookup r
  cases hlink : r.link with
  | some u =>
    by_cases hu : u = [] <;>
      simp [NotionRichText.toJVal, hlink, hu, runToMarkdown, runMdSpec,
        get_of_not_nullish, lookupKey_cons, lookupKey_nil, JVal.getOpt,
        JVal.isNullish, hb, hi, hs, hc, str_truthy_display, str_display_or_empty,
        truthy_flag, truthy_str, JVal.displayStr, if_empty_self, Except.bind,
        typeK, textK, contentK, linkK, urlK, annotationsK]
  | none =>
    by_cases hB : r.bold <;> by_cases hI : r.italic <;>
      by_cases hS : r.strikethrough <;> by_cases hC : r.code <;>
      simp [NotionRichText.toJVal, hlink, runToMarkdown, runMdSpec,
        get_of_not_nullish, lookupKey_cons, lookupKey_nil, JVal.getOpt,
        JVal.isNullish, hb, hi, hs, hc, hB, hI, hS, hC, str_truthy_display,
        str_display_or_empty, Except.bind, typeK, textK, contentK, linkK,
        urlK, annotationsK, JVal.truthy]

theorem mapM_runToMarkdown (rs : List NotionRichText) :
    (rs.map NotionRichText.toJVal).mapM runToMarkdown = .ok (rs.map runMdSpec) := by
  induction rs with
  | nil => rfl
  | cons r rest ih =>
    rw [List.map_cons, List.mapM_cons, runToMarkdown_toJVal, ih]
    rfl

theorem richTextToMarkdown_toJVal (rs : List NotionRichText) :
    richTextToMarkdown (richTextJVal rs) = .ok (runsMdSpec rs) := by
  have h := mapM_runToMarkdown rs
  calc richTextToMarkdown (richTextJVal rs)
      = Except.map List.flatten ((rs.map NotionRichText.toJVal).mapM runToMarkdown) := rfl
    _ = .ok (runsMdSpec rs) := by rw [h]; rfl

theorem blockLines_toJVal (b : Block) :
    blockLines (Block.toJVal b) = .ok (blockSegments b) := by
  cases b with
  | heading1 rs =>
    have h := richTextToMarkdown_toJVal rs
    calc blockLines (Block.toJVal (.heading1 rs))
        = Except.map (fun s => [h1Mark ++ s]) (richTextToMarkdown (richTextJVal rs)) := rfl
      _ = .ok (blockSegments (.heading1 rs)) := by rw [h]; rfl
  | heading2 rs =>
    have h := richTextToMarkdown_toJVal rs
    calc blockLines (Block.toJVal (.heading2 rs))
        = Except.map (fun s => [h2Mark ++ s]) (richTextToMarkdown (richTextJVal rs)) := rfl
      _ = .ok (blockSegments (.heading2 rs)) := by rw [h]; rfl
  | heading3 rs =>
    have h := richTextToMarkdown_toJVal rs
    calc blockLines (Block.toJVal (.heading3 rs))
        = Except.map (fun s => [h3Mark ++ s]) (richTextToMarkdown (richTextJVal rs)) := rfl
      _ = .ok (blockSegments (.heading3 rs)) := by rw [h]; rfl
  | toDo rs checked =>
    have h := richTextToMarkdown_toJVal rs
    calc blockLines (Block.toJVal (.toDo rs checked))
        = Except.map (fun s => [(if checked then todoChecked else todoUnchecked) ++ s])
            (richTextToMarkdown (richTextJVal rs)) := rfl
      _ = .ok (blockSegments (.toDo rs checked)) := by rw [h]; rfl
  | bulleted rs =>
    have h := richTextToMarkdown_toJVal rs
    calc blockLines (Block.toJVal (.bulleted rs))
        = Except.map (fun s => [bulletDash ++ s]) (richTextToMarkdown (richTextJVal rs)) := rfl
      _ = .ok (blockSegments (.bulleted rs)) := by rw [h]; rfl
  | numbered rs =>
    have h := richTextToMarkdown_toJVal rs
    calc blockLines (Block.toJVal (.numbered rs))
        = Except.map (fun s => [numberedOne ++ s]) (richTextToMarkdown (richTextJVal rs)) := rfl
      _ = .ok (blockSegments (.numbered rs)) := by rw [h]; rfl
  | quote rs =>
    have h := richTextToMarkdown_toJVal rs
    calc blockLines (Block.toJVal (.quote rs))
        = Except.map (fun s => [quoteMark ++ s]) (richTextToMarkdown (richTextJVal rs)) := rfl
      _ = .ok (blockSegments (.quote rs)) := by rw [h]; rfl
  | divider => rfl
  | paragraph rs =>
    have h := richTextToMarkdown_toJVal rs
    calc blockLines (Block.toJVal (.paragraph rs))
        = Except.map (fun s => [s]) (richTextToMarkdown (richTextJVal rs)) := rfl
      _ = .ok (blockSegments (.paragraph rs)) := by rw [h]; rfl
  | code rs lang =>
    have h := richTextToMarkdown_toJVal rs
    cases lang with
    | nil =>
      calc blockLines (Block.toJVal (.code rs []))
          = Except.map (fun s => [fence3 ++ [], s, fence3])
              (richTextToMarkdown (richTextJVal rs)) := rfl
        _ = .ok (blockSegments (.code rs [])) := by rw [h]; rfl
    | cons c cs =>
      calc blockLines (Block.toJVal (.code rs (c :: cs)))
          = Except.map (fun s => [fence3 ++ (c :: cs), s, fence3])
              (richTextToMarkdown (richTextJVal rs)) := rfl
        _ = .ok (blockSegments (.code rs (c :: cs))) := by rw [h]; rfl

theorem mapM_blockLines (bs : List Block) :
    (bs.map Block.toJVal).mapM blockLines = .ok (bs.map blockSegments) := by
  induction bs with
  | nil => rfl
  | cons b rest ih => rw [List.map_cons, List.mapM_cons, blockLines_toJVal, ih]; rfl

/-- `blocksToMarkdown` over serialized typed blocks renders the flattened
per-block segment lists joined with `'\n\n'`. -/
theorem blocksToMarkdown_segments (bs : List Block) :
    blocksToMarkdown (bs.map Block.toJVal) =
      .ok (List.intercalate ['\n', '\n'] (bs.map blockSegments).flatten) := by
  have h := mapM_blockLines bs
  calc blocksToMarkdown (bs.map Block.toJVal)
      = Except.map (fun l => List.intercalate ['\n', '\n'] l.flatten)
          ((bs.map Block.toJVal).mapM blockLines) := rfl
    _ = .ok (List.intercalate ['\n', '\n'] (bs.map blockSegments).flatten) := by
        rw [h]; rfl

/-- C4 amended: `blocksToMarkdown` renders a block sequence as the flattened
per-block segment lists joined with one blank line (`'\n\n'`) between every
two consecutive segments — including between the three segments (opening
fence with language tag, raw body, closing fence) that a code block
contributes, which are therefore not on three consecutive single-newline
separated lines. -/
theorem c4_blank_line_separator (bs : List Block) :
    blocksToMarkdown (bs.map Block.toJVal) =
      .ok (List.intercalate ['\n', '\n'] (bs.map blockSegments).flatten) :=
  blocksToMarkdown_segments bs

/-- C4 counterexample: a single code block renders with a blank line between
the opening fence, the body and the closing fence (all pushed lines are
joined with `'\n\n'`), not on three consecutive single-newline separated
lines. -/
theorem c4_counterexample :
    blocksToMarkdown [Block.toJVal (.code [mkPlain ['x']] ['j', 's'])] =
      .ok ( "```js\n\nx\n\n```".data) ∧
    ( "```js\n\nx\n\n```".data : Str) ≠ "```js\nx\n```".data := by
  constructor
  · rfl
  · decide

theorem runPlain_toJVal (r : NotionRichText) :
    (do
      let textv ← (NotionRichText.toJVal r).get textK
      let contentv := textv.getOpt contentK
      pure (if contentv.truthy then contentv.displayStr else ([] : Str)) :
        Except Unit Str) = .ok r.content := by
  cases hlink : r.link with
  | some u =>
    simp [NotionRichText.toJVal, hlink, get_of_not_nullish, lookupKey_cons,
      lookupKey_nil, JVal.getOpt, JVal.isNullish, str_truthy_display,
      typeK, textK, contentK, linkK, Except.bind, Except.pure]
  | none =>
    by_cases hfl : (r.bold || r.italic || r.strikethrough || r.code) <;>
      simp [NotionRichText.toJVal, hlink, hfl, get_of_not_nullish,
        lookupKey_cons, lookupKey_nil, JVal.getOpt, JVal.isNullish,
        str_truthy_display, typeK, textK, contentK, linkK, Except.bind,
        Except.pure]

theorem mapM_runPlain (rs : List NotionRichText) :
    (rs.map NotionRichText.toJVal).mapM (fun r => do
      let textv ← r.get textK
      let contentv := textv.getOpt contentK
      pure (if contentv.truthy then contentv.displayStr else ([] : Str))) =
      .ok (rs.map NotionRichText.content) := by
  induction rs with
  | nil => rfl
  | cons r rest ih =>
    rw [List.map_cons, List.mapM_cons, runPlain_toJVal, ih]
    rfl

theorem blockPlainLine_toJVal (b : Block) :
    blockPlainLine (Block.toJVal b) = .ok (blockPlainSpec b) := by
  cases b with
  | divider => rfl
  | heading1 rs =>
    have h := mapM_runPlain rs
    calc blockPlainLine (Block.toJVal (.heading1 rs))
        = Except.map (fun parts : List Str =>
            if parts.flatten.isEmpty then none else some parts.flatten)
            ((rs.map NotionRichText.toJVal).mapM (fun r => do
              let textv ← r.get textK
              let contentv := textv.getOpt contentK
              pure (if contentv.truthy then contentv.displayStr else ([] : Str)))) := rfl
      _ = .ok (blockPlainSpec (.heading1 rs)) := by rw [h]; rfl
  | heading2 rs =>
    have h := mapM_runPlain rs
    calc blockPlainLine (Block.toJVal (.heading2 rs))
        = Except.map (fun parts : List Str =>
            if parts.flatten.isEmpty then none else some parts.flatten)
            ((rs.map NotionRichText.toJVal).mapM (fun r => do
              let textv ← r.get textK
              let contentv := textv.getOpt contentK
              pure (if contentv.truthy then contentv.displayStr else ([] : Str)))) := rfl
      _ = .ok (blockPlainSpec (.heading2 rs)) := by rw [h]; rfl
  | heading3 rs =>
    have h := mapM_runPlain rs
    calc blockPlainLine (Block.toJVal (.heading3 rs))
        = Except.map (fun parts : List Str =>
            if parts.flatten.isEmpty then none else some parts.flatten)
            ((rs.map NotionRichText.toJVal).mapM (fun r => do
              let textv ← r.get textK
              let contentv := textv.getOpt contentK
              pure (if contentv.truthy then contentv.displayStr else ([] : Str)))) := rfl
      _ = .ok (blockPlainSpec (.heading3 rs)) := by rw [h]; rfl
  | toDo rs checked =>
    have h := mapM_runPlain rs
    calc blockPlainLine (Block.toJVal (.toDo rs checked))
        = Except.map (fun parts : List Str =>
            if parts.flatten.isEmpty then none else some parts.flatten)
            ((rs.map NotionRichText.toJVal).mapM (fun r => do
              let textv ← r.get textK
              let contentv := textv.getOpt contentK
              pure (if contentv.truthy then contentv.displayStr else ([] : Str)))) := rfl
      _ = .ok (blockPlainSpec (.toDo rs checked)) := by rw [h]; rfl
  | bulleted rs =>
    have h := mapM_runPlain rs
    calc blockPlainLine (Block.toJVal (.bulleted rs))
        = Except.map (fun parts : List Str =>
            if parts.flatten.isEmpty then none else some parts.flatten)
            ((rs.map NotionRichText.toJVal).mapM (fun r => do
              let textv ← r.get textK
              let contentv := textv.getOpt contentK
              pure (if contentv.truthy then contentv.displayStr else ([] : Str)))) := rfl
      _ = .ok (blockPlainSpec (.bulleted rs)) := by rw [h]; rfl
  | numbered rs =>
    have h := mapM_runPlain rs
    calc blockPlainLine (Block.toJVal (.numbered rs))
        = Except.map (fun parts : List Str =>
            if parts.flatten.isEmpty then none else some parts.flatten)
            ((rs.map NotionRichText.toJVal).mapM (fun r => do
              let textv ← r.get textK
              let contentv := textv.getOpt contentK
              pure (if contentv.truthy then contentv.displayStr else ([] : Str)))) := rfl
      _ = .ok (blockPlainSpec (.numbered rs)) := by rw [h]; rfl
  | quote rs =>
    have h := mapM_runPlain rs
    calc blockPlainLine (Block.toJVal (.quote rs))
        = Except.map (fun parts : List Str =>
            if parts.flatten.isEmpty then none else some parts.flatten)
            ((rs.map NotionRichText.toJVal).mapM (fun r => do
              let textv ← r.get textK
              let contentv := textv.getOpt contentK
              pure (if contentv.truthy then contentv.displayStr else ([] : Str)))) := rfl
      _ = .ok (blockPlainSpec (.quote rs)) := by rw [h]; rfl
  | paragraph rs =>
    have h := mapM_runPlain rs
    calc blockPlainLine (Block.toJVal (.paragraph rs))
        = Except.map (fun parts : List Str =>
            if parts.flatten.isEmpty then none else some parts.flatten)
            ((rs.map NotionRichText.toJVal).mapM (fun r => do
              let textv ← r.get textK
              let contentv := textv.getOpt contentK
              pure (if contentv.truthy then contentv.displayStr else ([] : Str)))) := rfl
      _ = .ok (blockPlainSpec (.paragraph rs)) := by rw [h]; rfl
  | code rs lang =>
    have h := mapM_runPlain rs
    calc blockPlainLine (Block.toJVal (.code rs lang))
        = Except.map (fun parts : List Str =>
            if parts.flatten.isEmpty then none else some parts.flatten)
            ((rs.map NotionRichText.toJVal).mapM (fun r => do
              let textv ← r.get textK
              let contentv := textv.getOpt contentK
              pure (if contentv.truthy then contentv.displayStr else ([] : Str)))) := rfl
      _ = .ok (blockPlainSpec (.code rs lang)) := by rw [h]; rfl

/-- C9 amended: on well-shaped block records (the images of typed blocks, as
the forward pipeline produces them), `blocksToPlainText` concatenates the
`content` of every run of each block's `rich_text` payload (ignoring
annotations and links), contributes nothing for blocks without a payload
(dividers) or with an empty concatenation, and joins the kept lines with a
single newline; the empty sequence yields the empty string.  A record whose
`rich_text` payload is truthy but not an array of records makes the function
raise instead (`c9_counterexample`). -/
theorem c9_plain_text_refines (bs : List Block) :
    blocksToPlainText (bs.map Block.toJVal) =
      .ok (List.intercalate ['\n'] (bs.filterMap blockPlainSpec)) := by
  have hm : (bs.map Block.toJVal).mapM blockPlainLine = .ok (bs.map blockPlainSpec) := by
    induction bs with
    | nil => rfl
    | cons b rest ih => rw [List.map_cons, List.mapM_cons, blockPlainLine_toJVal, ih]; rfl
  calc blocksToPlainText (bs.map Block.toJVal)
      = Except.map (fun lines => List.intercalate ['\n'] (lines.filterMap id))
          ((bs.map Block.toJVal).mapM blockPlainLine) := rfl
    _ = .ok (List.intercalate ['\n'] ((bs.map blockPlainSpec).filterMap id)) := by
        rw [hm]; rfl
    _ = .ok (List.intercalate ['\n'] (bs.filterMap blockPlainSpec)) := by
        rw [List.filterMap_map]; rfl

/-- C9 counterexample: a record carrying a truthy non-array `rich_text`
payload (here the string `"a"`) makes `blocksToPlainText` raise — the
JavaScript code calls `.map` on it — rather than skipping it. -/
theorem c9_counterexample :
    blocksToPlainText
      [JVal.obj [(typeK, JVal.str ['x']),
                 (['x'], JVal.obj [(richTextK, JVal.str ['a'])])]] =
      .error () := rfl


/-! ## Safety of the loosely typed renderer -/

theorem truthy_not_nullish {v : JVal} (h : v.truthy = true) : v.isNullish = false := by
  cases v <;> simp_all [JVal.truthy, JVal.isNullish]

theorem ok_bind {α β : Type} (x : α) (f : α → Except Unit β) :
    (do let y ← Except.ok x; f y : Except Unit β) = f x := rfl

theorem fmap_ok {α β : Type} (g : α → β) (x : α) :
    (g <$> (Except.ok x : Except Unit α)) = Except.ok (g x) := rfl

theorem pure_eq_ok {α : Type} (x : α) :
    (pure x : Except Unit α) = Except.ok x := rfl

theorem exceptOk_exists {α : Type} {e : Except Unit α} (h : exceptOk e = true) :
    ∃ x, e = .ok x := by
  cases e with
  | ok x => exact ⟨x, rfl⟩
  | error u => simp [exceptOk] at h

theorem runToMarkdown_ok {rt : JVal} (h : rt.isNullish = false) :
    ∃ s, runToMarkdown rt = .ok s := by
  unfold runToMarkdown
  rw [get_of_not_nullish h]
  exact ⟨_, rfl⟩

theorem mapM_runToMarkdown_ok {xs : List JVal}
    (h : ∀ x ∈ xs, x.isNullish = false) :
    ∃ l, xs.mapM runToMarkdown = Except.ok l := by
  induction xs with
  | nil => exact ⟨[], rfl⟩
  | cons x rest ih =>
    obtain ⟨s, hs⟩ := runToMarkdown_ok (h x (by simp))
    obtain ⟨l, hl⟩ := ih (fun y hy => h y (List.mem_cons_of_mem x hy))
    refine ⟨s :: l, ?_⟩
    rw [List.mapM_cons, hs, hl]
    rfl

theorem richTextToMarkdown_ok {v : JVal} (h : safeRichTextVal v = true) :
    ∃ s, richTextToMarkdown v = .ok s := by
  cases v with
  | arr xs =>
    simp only [safeRichTextVal, List.all_eq_true, Bool.not_eq_true'] at h
    obtain ⟨l, hl⟩ := mapM_runToMarkdown_ok h
    refine ⟨l.flatten, ?_⟩
    calc richTextToMarkdown (.arr xs)
        = Except.map List.flatten (xs.mapM runToMarkdown) := rfl
      _ = .ok l.flatten := by rw [hl]; rfl
  | undef => exact ⟨[], rfl⟩
  | nullv => exact ⟨[], rfl⟩
  | bool b => exact ⟨[], rfl⟩
  | str s => exact ⟨[], rfl⟩
  | obj fs => exact ⟨[], rfl⟩

theorem blockLines_ok {b : JVal} (h : safeBlock b = true) :
    exceptOk (blockLines b) = true := by
  simp only [safeBlock, Bool.and_eq_true, Bool.not_eq_true'] at h
  obtain ⟨hb, hrest⟩ := h
  have hget : ∀ k, b.get k = .ok (b.lookupKey k) := get_of_not_nullish hb
  by_cases h1 : (b.lookupKey typeK).isStrEq paragraphK
  · have hkk : knownKey (b.lookupKey typeK) = some paragraphK := by
      simp [knownKey, h1]
    rw [hkk] at hrest
    simp only [Bool.and_eq_true, Bool.not_eq_true'] at hrest
    obtain ⟨hp, hsr⟩ := hrest
    obtain ⟨s, hs⟩ := richTextToMarkdown_ok hsr
    simp [blockLines, hget, get_of_not_nullish hp, h1, hs,
      ok_bind, fmap_ok, pure_eq_ok, exceptOk]
  · 
    by_cases h2 : (b.lookupKey typeK).isStrEq heading1K
    · have hkk : knownKey (b.lookupKey typeK) = some heading1K := by
        simp [knownKey, h1, h2]
      rw [hkk] at hrest
      simp only [Bool.and_eq_true, Bool.not_eq_true'] at hrest
      obtain ⟨hp, hsr⟩ := hrest
      obtain ⟨s, hs⟩ := richTextToMarkdown_ok hsr
      simp [blockLines, hget, get_of_not_nullish hp, h1, h2, hs,
        ok_bind, fmap_ok, pure_eq_ok, exceptOk]
    · 
      by_cases h3 : (b.lookupKey typeK).isStrEq heading2K
      · have hkk : knownKey (b.lookupKey typeK) = some heading2K := by
          simp [knownKey, h1, h2, h3]
        rw [hkk] at hrest
        simp only [Bool.and_eq_true, Bool.not_eq_true'] at hrest
        obtain ⟨hp, hsr⟩ := hrest
        obtain ⟨s, hs⟩ := richTextToMarkdown_ok hsr
        simp [blockLines, hget, get_of_not_nullish hp, h1, h2, h3, hs,
          ok_bind, fmap_ok, pure_eq_ok, exceptOk]
      · 
        by_cases h4 : (b.lookupKey typeK).isStrEq heading3K
        · have hkk : knownKey (b.lookupKey typeK) = some heading3K := by
            simp [knownKey, h1, h2, h3, h4]
          rw [hkk] at hrest
          simp only [Bool.and_eq_true, Bool.not_eq_true'] at hrest
          obtain ⟨hp, hsr⟩ := hrest
          obtain ⟨s, hs⟩ := richTextToMarkdown_ok hsr
          simp [blockLines, hget, get_of_not_nullish hp, h1, h2, h3, h4, hs,
            ok_bind, fmap_ok, pure_eq_ok, exceptOk]
        · 
          by_cases h5 : (b.lookupKey typeK).isStrEq bulletedK
          · have hkk : knownKey (b.lookupKey typeK) = some bulletedK := by
              simp [knownKey, h1, h2, h3, h4, h5]
            rw [hkk] at hrest
            simp only [Bool.and_eq_true, Bool.not_eq_true'] at hrest
            obtain ⟨hp, hsr⟩ := hrest
            obtain ⟨s, hs⟩ := richTextToMarkdown_ok hsr
            simp [blockLines, hget, get_of_not_nullish hp, h1, h2, h3, h4, h5, hs,
              ok_bind, fmap_ok, pure_eq_ok, exceptOk]
          · 
            by_cases h6 : (b.lookupKey typeK).isStrEq numberedK
            · have hkk : knownKey (b.lookupKey typeK) = some numberedK := by
                simp [knownKey, h1, h2, h3, h4, h5, h6]
              rw [hkk] at hrest
              simp only [Bool.and_eq_true, Bool.not_eq_true'] at hrest
              obtain ⟨hp, hsr⟩ := hrest
              obtain ⟨s, hs⟩ := richTextToMarkdown_ok hsr
              simp [blockLines, hget, get_of_not_nullish hp, h1, h2, h3, h4, h5, h6, hs,
                ok_bind, fmap_ok, pure_eq_ok, exceptOk]
            · 
              by_cases h7 : (b.lookupKey typeK).isStrEq toDoK
              · have hkk : knownKey (b.lookupKey typeK) = some toDoK := by
                  simp [knownKey, h1, h2, h3, h4, h5, h6, h7]
                rw [hkk] at hrest
                simp only [Bool.and_eq_true, Bool.not_eq_true'] at hrest
                obtain ⟨hp, hsr⟩ := hrest
                obtain ⟨s, hs⟩ := richTextToMarkdown_ok hsr
                simp [blockLines, hget, get_of_not_nullish hp, h1, h2, h3, h4, h5, h6, h7, hs,
                  ok_bind, fmap_ok, pure_eq_ok, exceptOk]
              · 
                by_cases h8 : (b.lookupKey typeK).isStrEq quoteK
                · have hkk : knownKey (b.lookupKey typeK) = some quoteK := by
                    simp [knownKey, h1, h2, h3, h4, h5, h6, h7, h8]
                  rw [hkk] at hrest
                  simp only [Bool.and_eq_true, Bool.not_eq_true'] at hrest
                  obtain ⟨hp, hsr⟩ := hrest
                  obtain ⟨s, hs⟩ := richTextToMarkdown_ok hsr
                  simp [blockLines, hget, get_of_not_nullish hp, h1, h2, h3, h4, h5, h6, h7, h8, hs,
                    ok_bind, fmap_ok, pure_eq_ok, exceptOk]
                · 
                  by_cases h9 : (b.lookupKey typeK).isStrEq codeK
                  · have hkk : knownKey (b.lookupKey typeK) = some codeK := by
                      simp [knownKey, h1, h2, h3, h4, h5, h6, h7, h8, h9]
                    rw [hkk] at hrest
                    simp only [Bool.and_eq_true, Bool.not_eq_true'] at hrest
                    obtain ⟨hp, hsr⟩ := hrest
                    obtain ⟨s, hs⟩ := richTextToMarkdown_ok hsr
                    simp [blockLines, hget, get_of_not_nullish hp, h1, h2, h3, h4, h5, h6, h7, h8, h9, hs,
                      ok_bind, fmap_ok, pure_eq_ok, exceptOk]
                  · 
                    by_cases h10 : (b.lookupKey typeK).isStrEq dividerK
                    · simp [blockLines, hget, h1, h2, h3, h4, h5, h6, h7, h8, h9, h10, ok_bind, fmap_ok, pure_eq_ok, exceptOk]
                    · have hkk : knownKey (b.lookupKey typeK) = none := by
                        simp [knownKey, h1, h2, h3, h4, h5, h6, h7, h8, h9]
                      rw [hkk] at hrest
                      simp only [Bool.or_eq_true, Bool.not_eq_true'] at hrest
                      by_cases hv : (b.lookupKey ((b.lookupKey typeK).displayStr)).truthy
                      · have hsr : safeRichTextVal
                            ((b.lookupKey ((b.lookupKey typeK).displayStr)).lookupKey richTextK) = true := by
                          rcases hrest with hrest | hrest
                          · rw [hrest] at h10; cases h10 rfl
                          · rcases hrest with hrest | hrest
                            · rw [hv] at hrest; cases hrest
                            · exact hrest
                        by_cases hrt : ((b.lookupKey ((b.lookupKey typeK).displayStr)).lookupKey richTextK).truthy
                        · obtain ⟨s, hs⟩ := richTextToMarkdown_ok hsr
                          simp [blockLines, hget, h1, h2, h3, h4, h5, h6, h7, h8, h9, h10, hv, hrt, hs, ok_bind, fmap_ok, pure_eq_ok,
                            exceptOk, get_of_not_nullish (truthy_not_nullish hv)]
                        · simp [blockLines, hget, h1, h2, h3, h4, h5, h6, h7, h8, h9, h10, hv, hrt, ok_bind, fmap_ok, pure_eq_ok,
                            exceptOk, get_of_not_nullish (truthy_not_nullish hv)]
                      · simp [blockLines, hget, h1, h2, h3, h4, h5, h6, h7, h8, h9, h10, hv, ok_bind, fmap_ok, pure_eq_ok, exceptOk]


/-- C3 counterexample: a record with `type: 'paragraph'` but no `paragraph`
payload field makes `blocksToMarkdown` raise (the code dereferences
`.rich_text` on the missing payload) instead of skipping the content. -/
theorem c3_counterexample :
    blocksToMarkdown [JVal.obj [(typeK, JVal.str paragraphK)]] = .error () := rfl

theorem mapM_blockLines_ok {blocks : List JVal}
    (h : ∀ b ∈ blocks, safeBlock b = true) :
    ∃ l, blocks.mapM blockLines = Except.ok l := by
  induction blocks with
  | nil => exact ⟨[], rfl⟩
  | cons b rest ih =>
    obtain ⟨ls, hls⟩ := exceptOk_exists (blockLines_ok (h b (by simp)))
    obtain ⟨l, hl⟩ := ih (fun y hy => h y (List.mem_cons_of_mem b hy))
    refine ⟨ls :: l, ?_⟩
    rw [List.mapM_cons, hls, hl]
    rfl

/-- C3 amended: `blocksToMarkdown` returns a string without raising for every
array of records in which each record is itself non-nullish and, when its
type is one of the recognized payload-carrying ones, carries that payload
field (not `undefined`/`null`) with a `rich_text` that, if an array, holds no
nullish runs (same condition on the probed `b[type]` value for unrecognized
types); unknown types and otherwise malformed shapes are tolerated and
skipped.  A recognized-type record whose payload field is missing makes it
raise instead (`c3_counterexample`). -/
theorem c3_no_throw_on_safe_blocks :
    ∀ blocks : List JVal, blocks.all safeBlock = true →
      exceptOk (blocksToMarkdown blocks) = true := by
  intro blocks h
  simp only [List.all_eq_true] at h
  obtain ⟨l, hl⟩ := mapM_blockLines_ok h
  calc exceptOk (blocksToMarkdown blocks)
      = exceptOk (Except.map
          (fun liness : List (List Str) =>
            List.intercalate ['\n', '\n'] liness.flatten)
          (blocks.mapM blockLines)) := rfl
    _ = true := by rw [hl]; rfl

/-- C3 witness: the amended claim at a list holding a paragraph whose
`rich_text` is a bare string (tolerated, rendered as nothing) and a record of
an unknown type with no payload at all. -/
theorem c3_no_throw_on_safe_blocks_witness :
    ([JVal.obj [(typeK, JVal.str paragraphK),
                (paragraphK, JVal.obj [(richTextK, JVal.str ['x'])])],
      JVal.obj [(typeK, JVal.str ['m', 'y'])]].all safeBlock = true) ∧
    exceptOk (blocksToMarkdown
      [JVal.obj [(typeK, JVal.str paragraphK),
                 (paragraphK, JVal.obj [(richTextK, JVal.str ['x'])])],
       JVal.obj [(typeK, JVal.str ['m', 'y'])]]) = true :=
  ⟨by rfl,
   c3_no_throw_on_safe_blocks
     [JVal.obj [(typeK, JVal.str paragraphK),
                (paragraphK, JVal.obj [(richTextK, JVal.str ['x'])])],
      JVal.obj [(typeK, JVal.str ['m', 'y'])]] (by rfl)⟩


/-! ## Scanner computation lemmas for the round-trip class -/

theorem plainChar_props {c : Char} (h : plainChar c = true) :
    isJsWhitespace c = false ∧ c ≠ '*' ∧ c ≠ '~' ∧ c ≠ '`' ∧ c ≠ '[' ∧
      c ≠ ']' ∧ c ≠ '(' ∧ c ≠ ')' ∧ c ≠ '#' ∧ c ≠ '-' ∧ c ≠ '>' ∧
      c ≠ '.' ∧ c ≠ '_' := by
  have h2 := h
  simp only [plainChar, Bool.and_eq_true, bne_iff_ne, Bool.not_eq_true'] at h2
  tauto

theorem plainChar_ne_nl {c : Char} (h : plainChar c = true) : c ≠ '\n' := by
  intro he
  have := (plainChar_props h).1
  rw [he] at this
  simp [isJsWhitespace] at this

theorem plainStr_mem {t : Str} {c : Char} (hp : plainStr t = true) (hc : c ∈ t) :
    plainChar c = true := by
  simp only [plainStr, List.all_eq_true] at hp
  exact hp c hc

theorem plainStr_tail {c0 : Char} {t' : Str} (hp : plainStr (c0 :: t') = true) :
    plainStr t' = true := by
  simp only [plainStr, List.all_cons, Bool.and_eq_true] at hp ⊢
  exact hp.2

theorem plainStr_ne_star {t : Str} (hp : plainStr t = true) : ∀ c ∈ t, c ≠ '*' :=
  fun c hc => (plainChar_props (plainStr_mem hp hc)).2.1

theorem plainStr_ne_tilde {t : Str} (hp : plainStr t = true) : ∀ c ∈ t, c ≠ '~' :=
  fun c hc => (plainChar_props (plainStr_mem hp hc)).2.2.1

theorem plainStr_ne_tick {t : Str} (hp : plainStr t = true) : ∀ c ∈ t, c ≠ '`' :=
  fun c hc => (plainChar_props (plainStr_mem hp hc)).2.2.2.1

theorem plainStr_ne_lbr {t : Str} (hp : plainStr t = true) : ∀ c ∈ t, c ≠ '[' :=
  fun c hc => (plainChar_props (plainStr_mem hp hc)).2.2.2.2.1

theorem plainStr_ne_rbr {t : Str} (hp : plainStr t = true) : ∀ c ∈ t, c ≠ ']' :=
  fun c hc => (plainChar_props (plainStr_mem hp hc)).2.2.2.2.2.1

theorem plainStr_ne_rpar {t : Str} (hp : plainStr t = true) : ∀ c ∈ t, c ≠ ')' :=
  fun c hc => (plainChar_props (plainStr_mem hp hc)).2.2.2.2.2.2.2.1

theorem plainStr_ne_nl {t : Str} (hp : plainStr t = true) : ∀ c ∈ t, c ≠ '\n' :=
  fun c hc => plainChar_ne_nl (plainStr_mem hp hc)

theorem startsWith_cons (c p : Char) (cs ps : Str) :
    startsWith (c :: cs) (p :: ps) = (c = p && startsWith cs ps) := rfl

theorem boldAt_head_none {c : Char} {cs : Str} (h : c ≠ '*') :
    boldAt (c :: cs) = none := by
  cases cs with
  | nil => rfl
  | cons c2 r => simp [boldAt, h]

theorem italicAt_head_none {c : Char} {cs : Str} (h : c ≠ '*') :
    italicAt (c :: cs) = none := by
  simp [italicAt, h]

theorem strikeAt_head_none {c : Char} {cs : Str} (h : c ≠ '~') :
    strikeAt (c :: cs) = none := by
  cases cs with
  | nil => rfl
  | cons c2 r => simp [strikeAt, h]

theorem codeAt_head_none {c : Char} {cs : Str} (h : c ≠ '`') :
    codeAt (c :: cs) = none := by
  simp [codeAt, h]

theorem linkAt_head_none {c : Char} {cs : Str} (h : c ≠ '[') :
    linkAt (c :: cs) = none := by
  simp [linkAt, h]

theorem firstMatch_eq_none {p : Str → Option (Str × Option Str × Str)} :
    ∀ {s : Str}, (∀ c cs, (c :: cs) <:+ s → p (c :: cs) = none) →
      firstMatch p s = none := by
  intro s
  induction s with
  | nil => intro _; rfl
  | cons c cs ih =>
    intro hp
    rw [firstMatch, hp c cs (List.suffix_refl _),
      ih (fun d ds hsuf => hp d ds (hsuf.trans (List.suffix_cons c cs)))]

theorem firstMatch_none_of_no_char {p : Str → Option (Str × Option Str × Str)}
    {trig : Char} (hp : ∀ c cs, c ≠ trig → p (c :: cs) = none)
    {s : Str} (h : ∀ c ∈ s, c ≠ trig) : firstMatch p s = none := by
  apply firstMatch_eq_none
  intro c cs hsuf
  exact hp c cs (h c (hsuf.subset (List.mem_cons_self c cs)))

theorem firstMatch_cons_some {p : Str → Option (Str × Option Str × Str)}
    {c : Char} {cs content url rest}
    (h : p (c :: cs) = some (content, url, rest)) :
    firstMatch p (c :: cs) = some (0, content, url, rest) := by
  rw [firstMatch, h]

theorem lazyClose1_through {d : Char} {t : Str} (r : Str) (ht : t ≠ [])
    (hd : ∀ c ∈ t, c ≠ d) (hn : ∀ c ∈ t, c ≠ '\n') :
    lazyClose1 d (t ++ d :: r) = some (t, r) := by
  induction t with
  | nil => exact absurd rfl ht
  | cons c cs ih =>
    rw [List.cons_append, lazyClose1]
    rw [if_neg (by simpa using hn c (by simp))]
    cases cs with
    | nil => simp
    | cons c2 cs2 =>
      have hne : (c2 :: cs2 ++ d :: r).take 1 ≠ [d] := by
        simp [hd c2 (by simp)]
      rw [if_neg hne, ih (by simp) (fun x hx => hd x (List.mem_cons_of_mem c hx))
        (fun x hx => hn x (List.mem_cons_of_mem c hx))]

theorem lazyClose2_through {d : Char} {t : Str} (r : Str) (ht : t ≠ [])
    (hd : ∀ c ∈ t, c ≠ d) (hn : ∀ c ∈ t, c ≠ '\n') :
    lazyClose2 d (t ++ d :: d :: r) = some (t, r) := by
  induction t with
  | nil => exact absurd rfl ht
  | cons c cs ih =>
    rw [List.cons_append, lazyClose2]
    rw [if_neg (by simpa using hn c (by simp))]
    cases cs with
    | nil => simp
    | cons c2 cs2 =>
      have hne : (c2 :: cs2 ++ d :: d :: r).take 2 ≠ [d, d] := by
        simp [hd c2 (by simp)]
      rw [if_neg hne, ih (by simp) (fun x hx => hd x (List.mem_cons_of_mem c hx))
        (fun x hx => hn x (List.mem_cons_of_mem c hx))]

theorem lazyClose1_cons_step {d c : Char} {cs content rest : Str}
    (hc : ¬c = '\n') (hne : ¬cs.take 1 = [d])
    (hrec : lazyClose1 d cs = some (content, rest)) :
    lazyClose1 d (c :: cs) = some (c :: content, rest) := by
  rw [lazyClose1, if_neg hc, if_neg hne, hrec]


theorem pickEarliest_plain {s : Str} (hp : plainStr s = true) :
    pickEarliest s = none := by
  rw [pickEarliest,
    firstMatch_none_of_no_char (fun c cs h => boldAt_head_none h) (plainStr_ne_star hp),
    firstMatch_none_of_no_char (fun c cs h => italicAt_head_none h) (plainStr_ne_star hp),
    firstMatch_none_of_no_char (fun c cs h => strikeAt_head_none h) (plainStr_ne_tilde hp),
    firstMatch_none_of_no_char (fun c cs h => codeAt_head_none h) (plainStr_ne_tick hp),
    firstMatch_none_of_no_char (fun c cs h => linkAt_head_none h) (plainStr_ne_lbr hp)]
  rfl

theorem firstMatch_boldAt_star_end {t : Str} (hp : plainStr t = true) :
    firstMatch boldAt (t ++ ['*']) = none := by
  induction t with
  | nil => rfl
  | cons c cs ih =>
    rw [List.cons_append, firstMatch,
      boldAt_head_none (plainStr_ne_star hp c (by simp)), ih (plainStr_tail hp)]

theorem pickEarliest_bold {t : Str} (hp : plainStr t = true) (ht : t ≠ []) :
    pickEarliest ('*' :: '*' :: (t ++ ['*', '*'])) = some ⟨0, t, .bold, none, []⟩ := by
  obtain ⟨c0, t', rfl⟩ := List.exists_cons_of_ne_nil ht
  simp only [List.cons_append]
  have hc0 : plainChar c0 = true := plainStr_mem hp (by simp)
  have h2 : lazyClose2 '*' ((c0 :: t') ++ '*' :: '*' :: ([] : Str)) = some (c0 :: t', []) :=
    lazyClose2_through [] (by simp) (plainStr_ne_star hp) (plainStr_ne_nl hp)
  have h1 : lazyClose1 '*' ((c0 :: t') ++ '*' :: ['*']) = some (c0 :: t', ['*']) :=
    lazyClose1_through ['*'] (by simp) (plainStr_ne_star hp) (plainStr_ne_nl hp)
  simp only [List.cons_append] at h2 h1
  have hbold : boldAt ('*' :: '*' :: c0 :: (t' ++ ['*', '*'])) = some (c0 :: t', none, []) := by
    simp [boldAt, h2]
  have hstep : lazyClose1 '*' ('*' :: c0 :: (t' ++ ['*', '*'])) = some ('*' :: c0 :: t', ['*']) :=
    lazyClose1_cons_step (by decide) (by simp [(plainChar_props hc0).2.1]) h1
  have hital : italicAt ('*' :: '*' :: c0 :: (t' ++ ['*', '*'])) =
      some ('*' :: c0 :: t', none, ['*']) := by
    simp [italicAt, hstep]
  have hmem : ∀ c ∈ '*' :: '*' :: c0 :: (t' ++ ['*', '*']), c = '*' ∨ c ∈ c0 :: t' := by
    intro c hc
    simp at hc ⊢
    tauto
  have hnotilde : ∀ c ∈ '*' :: '*' :: c0 :: (t' ++ ['*', '*']), c ≠ '~' := by
    intro c hc
    rcases hmem c hc with rfl | hc2
    · decide
    · exact plainStr_ne_tilde hp c hc2
  have hnotick : ∀ c ∈ '*' :: '*' :: c0 :: (t' ++ ['*', '*']), c ≠ '`' := by
    intro c hc
    rcases hmem c hc with rfl | hc2
    · decide
    · exact plainStr_ne_tick hp c hc2
  have hnolbr : ∀ c ∈ '*' :: '*' :: c0 :: (t' ++ ['*', '*']), c ≠ '[' := by
    intro c hc
    rcases hmem c hc with rfl | hc2
    · decide
    · exact plainStr_ne_lbr hp c hc2
  rw [pickEarliest, firstMatch_cons_some hbold, firstMatch_cons_some hital,
    firstMatch_none_of_no_char (fun c cs h => strikeAt_head_none h) hnotilde,
    firstMatch_none_of_no_char (fun c cs h => codeAt_head_none h) hnotick,
    firstMatch_none_of_no_char (fun c cs h => linkAt_head_none h) hnolbr]
  rfl

theorem firstMatch_cons_none {p : Str → Option (Str × Option Str × Str)}
    {c : Char} {cs : Str}
    (h1 : p (c :: cs) = none) (h2 : firstMatch p cs = none) :
    firstMatch p (c :: cs) = none := by
  rw [firstMatch, h1, h2]

theorem drop_length_append (t r : Str) : (t ++ r).drop t.length = r := by
  induction t with
  | nil => rfl
  | cons c cs ih => simpa using ih

theorem takeWhile_append_of_all {q : Char → Bool} {t : Str} {x : Char} (r : Str)
    (hall : ∀ c ∈ t, q c = true) (hx : q x = false) :
    (t ++ x :: r).takeWhile q = t := by
  induction t with
  | nil => simp [List.takeWhile, hx]
  | cons c cs ih =>
    rw [List.cons_append, List.takeWhile_cons, hall c (by simp)]
    simp only [if_true]
    rw [ih (fun d hd => hall d (List.mem_cons_of_mem c hd))]

theorem pickEarliest_italic {t : Str} (hp : plainStr t = true) (ht : t ≠ []) :
    pickEarliest ('*' :: (t ++ ['*'])) = some ⟨0, t, .italic, none, []⟩ := by
  have hital : italicAt ('*' :: (t ++ ['*'])) = some (t, none, []) := by
    have h1 : lazyClose1 '*' (t ++ '*' :: []) = some (t, []) :=
      lazyClose1_through [] ht (plainStr_ne_star hp) (plainStr_ne_nl hp)
    simp [italicAt, h1]
  have hboldn : firstMatch boldAt ('*' :: (t ++ ['*'])) = none := by
    obtain ⟨c0, t', rfl⟩ := List.exists_cons_of_ne_nil ht
    have hb : boldAt ('*' :: ((c0 :: t') ++ ['*'])) = none := by
      simp only [List.cons_append]
      cases hcc : c0 == '*' with
      | true => exact absurd (by simpa using hcc) (plainStr_ne_star hp c0 (by simp))
      | false =>
        simp [boldAt, show ¬c0 = '*' by simpa using hcc]
    exact firstMatch_cons_none hb (firstMatch_boldAt_star_end hp)
  have hmem : ∀ c ∈ '*' :: (t ++ ['*']), c = '*' ∨ c ∈ t := by
    intro c hc
    simp at hc ⊢
    tauto
  have hnotilde : ∀ c ∈ '*' :: (t ++ ['*']), c ≠ '~' := by
    intro c hc
    rcases hmem c hc with rfl | hc2
    · decide
    · exact plainStr_ne_tilde hp c hc2
  have hnotick : ∀ c ∈ '*' :: (t ++ ['*']), c ≠ '`' := by
    intro c hc
    rcases hmem c hc with rfl | hc2
    · decide
    · exact plainStr_ne_tick hp c hc2
  have hnolbr : ∀ c ∈ '*' :: (t ++ ['*']), c ≠ '[' := by
    intro c hc
    rcases hmem c hc with rfl | hc2
    · decide
    · exact plainStr_ne_lbr hp c hc2
  rw [pickEarliest, hboldn, firstMatch_cons_some hital,
    firstMatch_none_of_no_char (fun c cs h => strikeAt_head_none h) hnotilde,
    firstMatch_none_of_no_char (fun c cs h => codeAt_head_none h) hnotick,
    firstMatch_none_of_no_char (fun c cs h => linkAt_head_none h) hnolbr]
  rfl

theorem pickEarliest_strike {t : Str} (hp : plainStr t = true) (ht : t ≠ []) :
    pickEarliest ('~' :: '~' :: (t ++ ['~', '~'])) =
      some ⟨0, t, .strikethrough, none, []⟩ := by
  have hstrike : strikeAt ('~' :: '~' :: (t ++ ['~', '~'])) = some (t, none, []) := by
    have h2 : lazyClose2 '~' (t ++ '~' :: '~' :: []) = some (t, []) :=
      lazyClose2_through [] ht (plainStr_ne_tilde hp) (plainStr_ne_nl hp)
    simp [strikeAt, h2]
  have hmem : ∀ c ∈ '~' :: '~' :: (t ++ ['~', '~']), c = '~' ∨ c ∈ t := by
    intro c hc
    simp at hc ⊢
    tauto
  have hnostar : ∀ c ∈ '~' :: '~' :: (t ++ ['~', '~']), c ≠ '*' := by
    intro c hc
    rcases hmem c hc with rfl | hc2
    · decide
    · exact plainStr_ne_star hp c hc2
  have hnotick : ∀ c ∈ '~' :: '~' :: (t ++ ['~', '~']), c ≠ '`' := by
    intro c hc
    rcases hmem c hc with rfl | hc2
    · decide
    · exact plainStr_ne_tick hp c hc2
  have hnolbr : ∀ c ∈ '~' :: '~' :: (t ++ ['~', '~']), c ≠ '[' := by
    intro c hc
    rcases hmem c hc with rfl | hc2
    · decide
    · exact plainStr_ne_lbr hp c hc2
  rw [pickEarliest,
    firstMatch_none_of_no_char (fun c cs h => boldAt_head_none h) hnostar,
    firstMatch_none_of_no_char (fun c cs h => italicAt_head_none h) hnostar,
    firstMatch_cons_some hstrike,
    firstMatch_none_of_no_char (fun c cs h => codeAt_head_none h) hnotick,
    firstMatch_none_of_no_char (fun c cs h => linkAt_head_none h) hnolbr]
  rfl

theorem pickEarliest_code {t : Str} (hp : plainStr t = true) (ht : t ≠ []) :
    pickEarliest ('`' :: (t ++ ['`'])) = some ⟨0, t, .code, none, []⟩ := by
  have hcode : codeAt ('`' :: (t ++ ['`'])) = some (t, none, []) := by
    have h1 : lazyClose1 '`' (t ++ '`' :: []) = some (t, []) :=
      lazyClose1_through [] ht (plainStr_ne_tick hp) (plainStr_ne_nl hp)
    simp [codeAt, h1]
  have hmem : ∀ c ∈ '`' :: (t ++ ['`']), c = '`' ∨ c ∈ t := by
    intro c hc
    simp at hc ⊢
    tauto
  have hnostar : ∀ c ∈ '`' :: (t ++ ['`']), c ≠ '*' := by
    intro c hc
    rcases hmem c hc with rfl | hc2
    · decide
    · exact plainStr_ne_star hp c hc2
  have hnotilde : ∀ c ∈ '`' :: (t ++ ['`']), c ≠ '~' := by
    intro c hc
    rcases hmem c hc with rfl | hc2
    · decide
    · exact plainStr_ne_tilde hp c hc2
  have hnolbr : ∀ c ∈ '`' :: (t ++ ['`']), c ≠ '[' := by
    intro c hc
    rcases hmem c hc with rfl | hc2
    · decide
    · exact plainStr_ne_lbr hp c hc2
  rw [pickEarliest,
    firstMatch_none_of_no_char (fun c cs h => boldAt_head_none h) hnostar,
    firstMatch_none_of_no_char (fun c cs h => italicAt_head_none h) hnostar,
    firstMatch_none_of_no_char (fun c cs h => strikeAt_head_none h) hnotilde,
    firstMatch_cons_some hcode,
    firstMatch_none_of_no_char (fun c cs h => linkAt_head_none h) hnolbr]
  rfl

theorem pickEarliest_link {t u : Str} (hp : plainStr t = true) (ht : t ≠ [])
    (hpu : plainStr u = true) (hu : u ≠ []) :
    pickEarliest ('[' :: (t ++ ']' :: '(' :: (u ++ [')']))) =
      some ⟨0, t, .link, some u, []⟩ := by
  have hlink : linkAt ('[' :: (t ++ ']' :: '(' :: (u ++ [')']))) =
      some (t, some u, []) := by
    rw [linkAt, if_pos rfl]
    have htk : (t ++ ']' :: '(' :: (u ++ [')'])).takeWhile (fun d => d != ']') = t :=
      takeWhile_append_of_all _ (fun c hc => by
        simpa using plainStr_ne_rbr hp c hc) (by simp)
    rw [htk]
    simp only [List.isEmpty_eq_true]
    rw [if_neg ht, drop_length_append]
    show (if (u ++ [')']).takeWhile (fun d => d != ')') = [] then none
      else
        match (u ++ [')']).drop ((u ++ [')']).takeWhile (fun d => d != ')')).length with
        | ')' :: tail => some (t, some ((u ++ [')']).takeWhile (fun d => d != ')')), tail)
        | _ => none) = some (t, some u, [])
    have htk2 : (u ++ [')']).takeWhile (fun d => d != ')') = u := by
      have : (u ++ ')' :: []).takeWhile (fun d => d != ')') = u :=
        takeWhile_append_of_all _ (fun c hc => by
          simpa using plainStr_ne_rpar hpu c hc) (by simp)
      simpa using this
    rw [htk2]
    rw [if_neg hu]
    have hdu : (u ++ [')']).drop u.length = [')'] := drop_length_append u [')']
    rw [hdu]
    rfl
  have hmem : ∀ c ∈ '[' :: (t ++ ']' :: '(' :: (u ++ [')'])),
      c = '[' ∨ c = ']' ∨ c = '(' ∨ c = ')' ∨ c ∈ t ∨ c ∈ u := by
    intro c hc
    simp at hc ⊢
    tauto
  have hnostar : ∀ c ∈ '[' :: (t ++ ']' :: '(' :: (u ++ [')'])), c ≠ '*' := by
    intro c hc
    rcases hmem c hc with rfl | rfl | rfl | rfl | hc2 | hc2
    · decide
    · decide
    · decide
    · decide
    · exact plainStr_ne_star hp c hc2
    · exact plainStr_ne_star hpu c hc2
  have hnotilde : ∀ c ∈ '[' :: (t ++ ']' :: '(' :: (u ++ [')'])), c ≠ '~' := by
    intro c hc
    rcases hmem c hc with rfl | rfl | rfl | rfl | hc2 | hc2
    · decide
    · decide
    · decide
    · decide
    · exact plainStr_ne_tilde hp c hc2
    · exact plainStr_ne_tilde hpu c hc2
  have hnotick : ∀ c ∈ '[' :: (t ++ ']' :: '(' :: (u ++ [')'])), c ≠ '`' := by
    intro c hc
    rcases hmem c hc with rfl | rfl | rfl | rfl | hc2 | hc2
    · decide
    · decide
    · decide
    · decide
    · exact plainStr_ne_tick hp c hc2
    · exact plainStr_ne_tick hpu c hc2
  rw [pickEarliest,
    firstMatch_none_of_no_char (fun c cs h => boldAt_head_none h) hnostar,
    firstMatch_none_of_no_char (fun c cs h => italicAt_head_none h) hnostar,
    firstMatch_none_of_no_char (fun c cs h => strikeAt_head_none h) hnotilde,
    firstMatch_none_of_no_char (fun c cs h => codeAt_head_none h) hnotick,
    firstMatch_cons_some hlink]
  rfl

theorem parseLoopF_pick_zero {w : Str} {m : InlineMatch} (f : Nat)
    (hp : pickEarliest w = some m) (hi : m.index = 0) (hr : m.rest = []) :
    parseLoopF (f + 1) w = [mkRun m] := by
  cases w with
  | nil =>
    rw [pickEarliest] at hp
    simp [firstMatch, updEarliest] at hp
  | cons c cs =>
    rw [parseLoopF, hp]
    simp only [hi, hr, parseLoopF_nil]
    rfl

theorem parseInlineFormatting_single {w : Str} {m : InlineMatch}
    (hp : pickEarliest w = some m) (hi : m.index = 0) (hr : m.rest = []) :
    parseInlineFormatting w = [mkRun m] := by
  rw [parseInlineFormatting]
  have h := parseLoopF_pick_zero w.length hp hi hr
  simp [h]

theorem parseInline_wrap (c : Wrap) {t u : Str}
    (hpt : plainStr t = true) (ht : t ≠ [])
    (hpu : plainStr u = true) (hu : u ≠ []) :
    parseInlineFormatting (wrapOf c t u) = [runOf c t u] := by
  cases c with
  | plainW => exact parseInlineFormatting_no_match (pickEarliest_plain hpt)
  | boldW =>
    have h := parseInlineFormatting_single
      (m := ⟨0, t, .bold, none, []⟩)
      (w := '*' :: '*' :: (t ++ ['*', '*'])) (pickEarliest_bold hpt ht) rfl rfl
    simp only [wrapOf, List.cons_append]
    rw [h]
    rfl
  | italicW =>
    have h := parseInlineFormatting_single
      (m := ⟨0, t, .italic, none, []⟩)
      (w := '*' :: (t ++ ['*'])) (pickEarliest_italic hpt ht) rfl rfl
    simp only [wrapOf, List.cons_append]
    rw [h]
    rfl
  | strikeW =>
    have h := parseInlineFormatting_single
      (m := ⟨0, t, .strikethrough, none, []⟩)
      (w := '~' :: '~' :: (t ++ ['~', '~'])) (pickEarliest_strike hpt ht) rfl rfl
    simp only [wrapOf, List.cons_append]
    rw [h]
    rfl
  | codeW =>
    have h := parseInlineFormatting_single
      (m := ⟨0, t, .code, none, []⟩)
      (w := '`' :: (t ++ ['`'])) (pickEarliest_code hpt ht) rfl rfl
    simp only [wrapOf, List.cons_append]
    rw [h]
    rfl
  | linkW =>
    have h := parseInlineFormatting_single
      (m := ⟨0, t, .link, some u, []⟩)
      (w := '[' :: (t ++ ']' :: '(' :: (u ++ [')'])))
      (pickEarliest_link hpt ht hpu hu) rfl rfl
    simp only [wrapOf, List.cons_append, List.append_assoc, List.singleton_append]
    rw [h]
    simp only [mkRun, runOf]
    obtain ⟨u0, u', rfl⟩ := List.exists_cons_of_ne_nil hu
    rfl

theorem numberedMatch_head_notdigit {h : Char} {rest : Str}
    (hd : h.isDigit = false) : numberedMatch (h :: rest) = none := by
  simp [numberedMatch, List.takeWhile_cons, hd]

theorem numberedMatch_no_dot {s : Str} (hnd : '.' ∉ s) : numberedMatch s = none := by
  rw [numberedMatch]
  simp only []
  split
  · rfl
  · split
    · next heq =>
      exfalso
      exact hnd (List.mem_of_mem_drop (by rw [heq]; exact List.mem_cons_self _ _))
    · rfl

theorem plainStr_head {t0 : Char} {t' : Str} (hp : plainStr (t0 :: t') = true) :
    plainChar t0 = true :=
  plainStr_mem hp (List.mem_cons_self t0 t')

theorem plainChar_ne_dot {c : Char} (h : plainChar c = true) : c ≠ '.' := by
  have h2 := plainChar_props h
  tauto

theorem numberedMatch_plain {t : Str} (hp : plainStr t = true) :
    numberedMatch t = none :=
  numberedMatch_no_dot (fun hc =>
    plainChar_ne_dot (plainStr_mem hp hc) rfl)

theorem lineToBlock_plain {t : Str} (hp : plainStr t = true) (ht : t ≠ []) :
    lineToBlock t = some (.paragraph (parseInlineFormatting t)) := by
  obtain ⟨t0, t', rfl⟩ := List.exists_cons_of_ne_nil ht
  obtain ⟨hws, hstar, htilde, htick, hlbr, hrbr, hlpar, hrpar, hhash, hdash,
    hgt, hdot, hund⟩ := plainChar_props (plainStr_head hp)
  have htrim : trim (t0 :: t') = t0 :: t' := by
    refine trim_eq_self ?_ ?_
    · intro c hc
      simp only [List.head?_cons, Option.some.injEq] at hc
      rw [← hc]
      exact hws
    · intro c hc
      have hcm : c ∈ t0 :: t' := List.mem_of_mem_getLast? hc
      exact (plainChar_props (plainStr_mem hp hcm)).1
  rw [lineToBlock]
  simp only [htrim]
  rw [if_neg (by simp), if_neg ?hh1, if_neg ?hh2, if_neg ?hh3, if_neg ?htd,
    if_neg ?hbl, numberedMatch_plain hp, if_neg ?hq, if_neg ?hdv]
  case hh1 => simp [h1Mark, startsWith_cons_ne hhash]
  case hh2 => simp [h2Mark, startsWith_cons_ne hhash]
  case hh3 => simp [h3Mark, startsWith_cons_ne hhash]
  case htd =>
    simp [todoUnchecked, todoChecked, startsWith_cons_ne hdash]
  case hbl =>
    simp [bulletDash, bulletStar, startsWith_cons_ne hdash, startsWith_cons_ne hstar]
  case hq => simp [quoteMark, startsWith_cons_ne hgt]
  case hdv =>
    simp only [dividerDash, dividerStar, dividerUnder, Bool.or_eq_true,
      decide_eq_true_eq]
    rintro ((h | h) | h) <;> injection h with h1 h2
    · exact hdash h1
    · exact hstar h1
    · exact hund h1

theorem plainChar_ne_space {c : Char} (h : plainChar c = true) : c ≠ ' ' := by
  intro he
  have h1 := (plainChar_props h).1
  rw [he] at h1
  simp [isJsWhitespace] at h1

theorem lineToBlock_wrap (c : Wrap) {t u : Str}
    (hpt : plainStr t = true) (ht : t ≠ [])
    (hpu : plainStr u = true) (hu : u ≠ []) :
    lineToBlock (wrapOf c t u) =
      some (.paragraph (parseInlineFormatting (wrapOf c t u))) := by
  cases c with
  | plainW => exact lineToBlock_plain hpt ht
  | boldW =>
    simp only [wrapOf, List.cons_append]
    have htrim : trim ('*' :: ('*' :: (t ++ ['*', '*']))) =
        '*' :: ('*' :: (t ++ ['*', '*'])) := by
      refine trim_eq_self ?_ ?_
      · intro d hd
        simp only [List.head?_cons, Option.some.injEq] at hd
        subst hd
        decide
      · intro d hd
        rw [show '*' :: ('*' :: (t ++ ['*', '*'])) = ('*' :: '*' :: t) ++ ['*', '*']
              by simp, List.getLast?_append_of_ne_nil _ (by simp)] at hd
        simp only [List.getLast?_cons_cons, List.getLast?_singleton,
          Option.some.injEq] at hd
        subst hd
        decide
    rw [lineToBlock]
    simp only [htrim]
    rw [if_neg (by simp), if_neg ?hh1, if_neg ?hh2, if_neg ?hh3, if_neg ?htd,
      if_neg ?hbl, numberedMatch_head_notdigit (by decide), if_neg ?hq, if_neg ?hdv]
    case hh1 => simp [h1Mark, startsWith]
    case hh2 => simp [h2Mark, startsWith]
    case hh3 => simp [h3Mark, startsWith]
    case htd => simp [todoUnchecked, todoChecked, startsWith]
    case hbl => simp [bulletDash, bulletStar, startsWith]
    case hq => simp [quoteMark, startsWith]
    case hdv =>
      simp only [dividerDash, dividerStar, dividerUnder, Bool.or_eq_true,
        decide_eq_true_eq]
      rintro ((h | h) | h) <;> injection h with h1 h2
      · exact absurd h1 (by decide)
      · injection h2 with h3 h4
        have := congrArg List.length h4
        simp at this
      · exact absurd h1 (by decide)
  | italicW =>
    simp only [wrapOf, List.cons_append]
    obtain ⟨t0, t', rfl⟩ := List.exists_cons_of_ne_nil ht
    have hpc := plainStr_head hpt
    simp only [List.cons_append]
    have htrim : trim ('*' :: (t0 :: (t' ++ ['*']))) =
        '*' :: (t0 :: (t' ++ ['*'])) := by
      refine trim_eq_self ?_ ?_
      · intro d hd
        simp only [List.head?_cons, Option.some.injEq] at hd
        subst hd
        decide
      · intro d hd
        rw [show '*' :: (t0 :: (t' ++ ['*'])) = ('*' :: t0 :: t') ++ ['*']
              by simp, List.getLast?_append_of_ne_nil _ (by simp)] at hd
        simp only [List.getLast?_singleton, Option.some.injEq] at hd
        subst hd
        decide
    rw [lineToBlock]
    simp only [htrim]
    rw [if_neg (by simp), if_neg ?hh1, if_neg ?hh2, if_neg ?hh3, if_neg ?htd,
      if_neg ?hbl, numberedMatch_head_notdigit (by decide), if_neg ?hq, if_neg ?hdv]
    case hh1 => simp [h1Mark, startsWith]
    case hh2 => simp [h2Mark, startsWith]
    case hh3 => simp [h3Mark, startsWith]
    case htd => simp [todoUnchecked, todoChecked, startsWith]
    case hbl =>
      simp [bulletDash, bulletStar, startsWith, plainChar_ne_space hpc]
    case hq => simp [quoteMark, startsWith]
    case hdv =>
      simp only [dividerDash, dividerStar, dividerUnder, Bool.or_eq_true,
        decide_eq_true_eq]
      rintro ((h | h) | h) <;> injection h with h1 h2
      · exact absurd h1 (by decide)
      · injection h2 with h3 h4
        exact absurd h3 (plainChar_props hpc).2.1
      · exact absurd h1 (by decide)
  | strikeW =>
    simp only [wrapOf, List.cons_append]
    have htrim : trim ('~' :: ('~' :: (t ++ ['~', '~']))) =
        '~' :: ('~' :: (t ++ ['~', '~'])) := by
      refine trim_eq_self ?_ ?_
      · intro d hd
        simp only [List.head?_cons, Option.some.injEq] at hd
        subst hd
        decide
      · intro d hd
        rw [show '~' :: ('~' :: (t ++ ['~', '~'])) = ('~' :: '~' :: t) ++ ['~', '~']
              by simp, List.getLast?_append_of_ne_nil _ (by simp)] at hd
        simp only [List.getLast?_cons_cons, List.getLast?_singleton,
          Option.some.injEq] at hd
        subst hd
        decide
    rw [lineToBlock]
    simp only [htrim]
    rw [if_neg (by simp), if_neg ?hh1, if_neg ?hh2, if_neg ?hh3, if_neg ?htd,
      if_neg ?hbl, numberedMatch_head_notdigit (by decide), if_neg ?hq, if_neg ?hdv]
    case hh1 => simp [h1Mark, startsWith]
    case hh2 => simp [h2Mark, startsWith]
    case hh3 => simp [h3Mark, startsWith]
    case htd => simp [todoUnchecked, todoChecked, startsWith]
    case hbl => simp [bulletDash, bulletStar, startsWith]
    case hq => simp [quoteMark, startsWith]
    case hdv =>
      simp only [dividerDash, dividerStar, dividerUnder, Bool.or_eq_true,
        decide_eq_true_eq]
      rintro ((h | h) | h) <;> injection h with h1 h2 <;>
        exact absurd h1 (by decide)
  | codeW =>
    simp only [wrapOf, List.cons_append]
    have htrim : trim ('`' :: (t ++ ['`'])) = '`' :: (t ++ ['`']) := by
      refine trim_eq_self ?_ ?_
      · intro d hd
        simp only [List.head?_cons, Option.some.injEq] at hd
        subst hd
        decide
      · intro d hd
        rw [show '`' :: (t ++ ['`']) = ('`' :: t) ++ ['`']
              by simp, List.getLast?_append_of_ne_nil _ (by simp)] at hd
        simp only [List.getLast?_singleton, Option.some.injEq] at hd
        subst hd
        decide
    rw [lineToBlock]
    simp only [htrim]
    rw [if_neg (by simp), if_neg ?hh1, if_neg ?hh2, if_neg ?hh3, if_neg ?htd,
      if_neg ?hbl, numberedMatch_head_notdigit (by decide), if_neg ?hq, if_neg ?hdv]
    case hh1 => simp [h1Mark, startsWith]
    case hh2 => simp [h2Mark, startsWith]
    case hh3 => simp [h3Mark, startsWith]
    case htd => simp [todoUnchecked, todoChecked, startsWith]
    case hbl => simp [bulletDash, bulletStar, startsWith]
    case hq => simp [quoteMark, startsWith]
    case hdv =>
      simp only [dividerDash, dividerStar, dividerUnder, Bool.or_eq_true,
        decide_eq_true_eq]
      rintro ((h | h) | h) <;> injection h with h1 h2 <;>
        exact absurd h1 (by decide)
  | linkW =>
    simp only [wrapOf, List.cons_append, List.append_assoc]
    have htrim : trim ('[' :: (t ++ ']' :: '(' :: (u ++ [')']))) =
        '[' :: (t ++ ']' :: '(' :: (u ++ [')'])) := by
      refine trim_eq_self ?_ ?_
      · intro d hd
        simp only [List.head?_cons, Option.some.injEq] at hd
        subst hd
        decide
      · intro d hd
        rw [show '[' :: (t ++ ']' :: '(' :: (u ++ [')'])) =
              ('[' :: t ++ ']' :: '(' :: u) ++ [')']
              by simp, List.getLast?_append_of_ne_nil _ (by simp)] at hd
        simp only [List.getLast?_singleton, Option.some.injEq] at hd
        subst hd
        decide
    rw [lineToBlock]
    simp only [htrim]
    rw [if_neg (by simp), if_neg ?hh1, if_neg ?hh2, if_neg ?hh3, if_neg ?htd,
      if_neg ?hbl, numberedMatch_head_notdigit (by decide), if_neg ?hq, if_neg ?hdv]
    case hh1 => simp [h1Mark, startsWith]
    case hh2 => simp [h2Mark, startsWith]
    case hh3 => simp [h3Mark, startsWith]
    case htd => simp [todoUnchecked, todoChecked, startsWith]
    case hbl => simp [bulletDash, bulletStar, startsWith]
    case hq => simp [quoteMark, startsWith]
    case hdv =>
      simp only [dividerDash, dividerStar, dividerUnder, Bool.or_eq_true,
        decide_eq_true_eq]
      rintro ((h | h) | h) <;> injection h with h1 h2 <;>
        exact absurd h1 (by decide)

theorem wrap_ne_nil (c : Wrap) {t u : Str} (ht : t ≠ []) : wrapOf c t u ≠ [] := by
  cases c <;> simp [wrapOf, ht]

theorem wrap_mem (c : Wrap) {t u : Str} {d : Char} (hd : d ∈ wrapOf c t u) :
    d ∈ t ∨ d ∈ u ∨ d = '*' ∨ d = '~' ∨ d = '`' ∨ d = '[' ∨ d = ']' ∨
      d = '(' ∨ d = ')' := by
  cases c <;>
    simp only [wrapOf, List.cons_append, List.append_assoc, List.mem_cons,
      List.mem_append, List.mem_singleton] at hd <;>
    tauto

theorem wrap_no_nl (c : Wrap) {t u : Str}
    (hpt : plainStr t = true) (hpu : plainStr u = true) :
    '\n' ∉ wrapOf c t u := by
  intro h
  rcases wrap_mem c h with h | h | h | h | h | h | h | h | h
  · exact plainStr_ne_nl hpt _ h rfl
  · exact plainStr_ne_nl hpu _ h rfl
  all_goals exact absurd h (by decide)

theorem wrap_head_not_ws (c : Wrap) {t u : Str} (hpt : plainStr t = true) :
    ∀ d, (wrapOf c t u).head? = some d → isJsWhitespace d = false := by
  intro d hd
  cases c
  case plainW =>
    cases t with
    | nil => simp [wrapOf] at hd
    | cons t0 t' =>
      simp only [wrapOf, List.head?_cons, Option.some.injEq] at hd
      subst hd
      exact (plainChar_props (plainStr_head hpt)).1
  case boldW =>
    simp only [wrapOf, List.cons_append, List.head?_cons, Option.some.injEq] at hd
    subst hd; decide
  case italicW =>
    simp only [wrapOf, List.cons_append, List.head?_cons, Option.some.injEq] at hd
    subst hd; decide
  case strikeW =>
    simp only [wrapOf, List.cons_append, List.head?_cons, Option.some.injEq] at hd
    subst hd; decide
  case codeW =>
    simp only [wrapOf, List.cons_append, List.head?_cons, Option.some.injEq] at hd
    subst hd; decide
  case linkW =>
    simp only [wrapOf, List.cons_append, List.head?_cons, Option.some.injEq] at hd
    subst hd; decide

theorem wrap_last_not_ws (c : Wrap) {t u : Str}
    (hpt : plainStr t = true) (hpu : plainStr u = true) :
    ∀ d, (wrapOf c t u).getLast? = some d → isJsWhitespace d = false := by
  intro d hd
  cases c
  case plainW =>
    exact (plainChar_props (plainStr_mem hpt (List.mem_of_mem_getLast? hd))).1
  case boldW =>
    rw [show wrapOf .boldW t u = ('*' :: '*' :: t) ++ ['*', '*'] from rfl,
      List.getLast?_append_of_ne_nil _ (by simp)] at hd
    simp only [List.getLast?_cons_cons, List.getLast?_singleton,
      Option.some.injEq] at hd
    subst hd; decide
  case italicW =>
    rw [show wrapOf .italicW t u = ('*' :: t) ++ ['*'] from rfl,
      List.getLast?_append_of_ne_nil _ (by simp)] at hd
    simp only [List.getLast?_singleton, Option.some.injEq] at hd
    subst hd; decide
  case strikeW =>
    rw [show wrapOf .strikeW t u = ('~' :: '~' :: t) ++ ['~', '~'] from rfl,
      List.getLast?_append_of_ne_nil _ (by simp)] at hd
    simp only [List.getLast?_cons_cons, List.getLast?_singleton,
      Option.some.injEq] at hd
    subst hd; decide
  case codeW =>
    rw [show wrapOf .codeW t u = ('`' :: t) ++ ['`'] from rfl,
      List.getLast?_append_of_ne_nil _ (by simp)] at hd
    simp only [List.getLast?_singleton, Option.some.injEq] at hd
    subst hd; decide
  case linkW =>
    rw [show wrapOf .linkW t u = ('[' :: t ++ ']' :: '(' :: u) ++ [')'] by simp [wrapOf],
      List.getLast?_append_of_ne_nil _ (by simp)] at hd
    simp only [List.getLast?_singleton, Option.some.injEq] at hd
    subst hd; decide

theorem startsWith_nil (s : Str) : startsWith s [] = true := by
  cases s <;> rfl

theorem trim_marker (mk : Str) (c : Wrap) {t u : Str}
    (hmk0 : ∀ d, mk.head? = some d → isJsWhitespace d = false)
    (hpt : plainStr t = true) (ht : t ≠ []) (hpu : plainStr u = true) :
    trim (mk ++ wrapOf c t u) = mk ++ wrapOf c t u := by
  refine trim_eq_self ?_ ?_
  · intro d hd
    cases mk with
    | nil => exact wrap_head_not_ws c hpt d hd
    | cons m0 mrest =>
      simp only [List.cons_append, List.head?_cons, Option.some.injEq] at hd
      subst hd
      exact hmk0 m0 rfl
  · intro d hd
    rw [List.getLast?_append_of_ne_nil _ (wrap_ne_nil c ht)] at hd
    exact wrap_last_not_ws c hpt hpu d hd

theorem lineToBlock_h1 (c : Wrap) {t u : Str}
    (hpt : plainStr t = true) (ht : t ≠ []) (hpu : plainStr u = true) :
    lineToBlock (h1Mark ++ wrapOf c t u) =
      some (.heading1 (parseInlineFormatting (wrapOf c t u))) := by
  have htrim := trim_marker h1Mark c
    (by intro d hd; simp only [h1Mark, List.head?_cons, Option.some.injEq] at hd;
        subst hd; decide) hpt ht hpu
  rw [lineToBlock]
  simp only [h1Mark, List.cons_append] at htrim
  simp only [h1Mark, List.cons_append, htrim]
  rw [if_neg (by simp), if_pos (by simp [startsWith, startsWith_nil])]
  rfl

theorem lineToBlock_h2 (c : Wrap) {t u : Str}
    (hpt : plainStr t = true) (ht : t ≠ []) (hpu : plainStr u = true) :
    lineToBlock (h2Mark ++ wrapOf c t u) =
      some (.heading2 (parseInlineFormatting (wrapOf c t u))) := by
  have htrim := trim_marker h2Mark c
    (by intro d hd; simp only [h2Mark, List.head?_cons, Option.some.injEq] at hd;
        subst hd; decide) hpt ht hpu
  rw [lineToBlock]
  simp only [h2Mark, List.cons_append] at htrim
  simp only [h2Mark, List.cons_append, htrim]
  rw [if_neg (by simp), if_neg (by simp [h1Mark, startsWith]),
    if_pos (by simp [startsWith, startsWith_nil])]
  rfl

theorem lineToBlock_h3 (c : Wrap) {t u : Str}
    (hpt : plainStr t = true) (ht : t ≠ []) (hpu : plainStr u = true) :
    lineToBlock (h3Mark ++ wrapOf c t u) =
      some (.heading3 (parseInlineFormatting (wrapOf c t u))) := by
  have htrim := trim_marker h3Mark c
    (by intro d hd; simp only [h3Mark, List.head?_cons, Option.some.injEq] at hd;
        subst hd; decide) hpt ht hpu
  rw [lineToBlock]
  simp only [h3Mark, List.cons_append] at htrim
  simp only [h3Mark, List.cons_append, htrim]
  rw [if_neg (by simp), if_neg (by simp [h1Mark, startsWith]),
    if_neg (by simp [h2Mark, startsWith]),
    if_pos (by simp [startsWith, startsWith_nil])]
  rfl

theorem lineToBlock_todoU (c : Wrap) {t u : Str}
    (hpt : plainStr t = true) (ht : t ≠ []) (hpu : plainStr u = true) :
    lineToBlock (todoUnchecked ++ wrapOf c t u) =
      some (.toDo (parseInlineFormatting (wrapOf c t u)) false) := by
  have htrim := trim_marker todoUnchecked c
    (by intro d hd;
        simp only [todoUnchecked, List.head?_cons, Option.some.injEq] at hd;
        subst hd; decide) hpt ht hpu
  rw [lineToBlock]
  simp only [todoUnchecked, List.cons_append] at htrim
  simp only [todoUnchecked, todoChecked, List.cons_append, htrim]
  rw [if_neg (by simp), if_neg (by simp [h1Mark, startsWith]),
    if_neg (by simp [h2Mark, startsWith]),
    if_neg (by simp [h3Mark, startsWith]),
    if_pos (by simp [startsWith, startsWith_nil])]
  rfl

theorem lineToBlock_todoC (c : Wrap) {t u : Str}
    (hpt : plainStr t = true) (ht : t ≠ []) (hpu : plainStr u = true) :
    lineToBlock (todoChecked ++ wrapOf c t u) =
      some (.toDo (parseInlineFormatting (wrapOf c t u)) true) := by
  have htrim := trim_marker todoChecked c
    (by intro d hd;
        simp only [todoChecked, List.head?_cons, Option.some.injEq] at hd;
        subst hd; decide) hpt ht hpu
  rw [lineToBlock]
  simp only [todoChecked, List.cons_append] at htrim
  simp only [todoUnchecked, todoChecked, List.cons_append, htrim]
  rw [if_neg (by simp), if_neg (by simp [h1Mark, startsWith]),
    if_neg (by simp [h2Mark, startsWith]),
    if_neg (by simp [h3Mark, startsWith]),
    if_pos (by simp [startsWith, startsWith_nil])]
  rw [show startsWith ('-' :: ' ' :: '[' :: 'x' :: ']' :: ' ' ::
        ([] ++ wrapOf c t u)) ['-', ' ', '[', 'x', ']', ' '] =
      startsWith (wrapOf c t u) [] from rfl, startsWith_nil]
  rfl

theorem lineToBlock_quote (c : Wrap) {t u : Str}
    (hpt : plainStr t = true) (ht : t ≠ []) (hpu : plainStr u = true) :
    lineToBlock (quoteMark ++ wrapOf c t u) =
      some (.quote (parseInlineFormatting (wrapOf c t u))) := by
  have htrim := trim_marker quoteMark c
    (by intro d hd; simp only [quoteMark, List.head?_cons, Option.some.injEq] at hd;
        subst hd; decide) hpt ht hpu
  rw [lineToBlock]
  simp only [quoteMark, List.cons_append] at htrim
  simp only [quoteMark, List.cons_append, htrim]
  rw [if_neg (by simp), if_neg (by simp [h1Mark, startsWith]),
    if_neg (by simp [h2Mark, startsWith]),
    if_neg (by simp [h3Mark, startsWith]),
    if_neg (by simp [todoUnchecked, todoChecked, startsWith]),
    if_neg (by simp [bulletDash, bulletStar, startsWith]),
    numberedMatch_head_notdigit (by decide),
    if_pos (by simp [startsWith, startsWith_nil])]
  rfl

theorem wrap_not_todoU_tail (c : Wrap) {t u : Str}
    (hpt : plainStr t = true) (ht : t ≠ []) :
    startsWith (wrapOf c t u) ['[', ' ', ']', ' '] = false := by
  cases c
  case plainW =>
    obtain ⟨t0, t', rfl⟩ := List.exists_cons_of_ne_nil ht
    exact startsWith_cons_ne (plainChar_props (plainStr_head hpt)).2.2.2.2.1
  case boldW => simp [wrapOf, startsWith]
  case italicW => simp [wrapOf, startsWith]
  case strikeW => simp [wrapOf, startsWith]
  case codeW => simp [wrapOf, startsWith]
  case linkW =>
    obtain ⟨t0, t', rfl⟩ := List.exists_cons_of_ne_nil ht
    have h0 := plainChar_ne_space (plainStr_head hpt)
    simp [wrapOf, startsWith, h0]

theorem wrap_not_todoC_tail (c : Wrap) {t u : Str}
    (hpt : plainStr t = true) (ht : t ≠ []) :
    startsWith (wrapOf c t u) ['[', 'x', ']', ' '] = false := by
  cases c
  case plainW =>
    obtain ⟨t0, t', rfl⟩ := List.exists_cons_of_ne_nil ht
    exact startsWith_cons_ne (plainChar_props (plainStr_head hpt)).2.2.2.2.1
  case boldW => simp [wrapOf, startsWith]
  case italicW => simp [wrapOf, startsWith]
  case strikeW => simp [wrapOf, startsWith]
  case codeW => simp [wrapOf, startsWith]
  case linkW =>
    obtain ⟨t0, t', rfl⟩ := List.exists_cons_of_ne_nil ht
    cases t' with
    | nil => simp [wrapOf, startsWith]
    | cons t1 t'' =>
      have h1 := (plainChar_props (plainStr_head (plainStr_tail hpt))).2.2.2.2.2.1
      simp [wrapOf, startsWith, h1]

theorem lineToBlock_bullet (c : Wrap) {t u : Str}
    (hpt : plainStr t = true) (ht : t ≠ []) (hpu : plainStr u = true) :
    lineToBlock (bulletDash ++ wrapOf c t u) =
      some (.bulleted (parseInlineFormatting (wrapOf c t u))) := by
  have htrim := trim_marker bulletDash c
    (by intro d hd;
        simp only [bulletDash, List.head?_cons, Option.some.injEq] at hd;
        subst hd; decide) hpt ht hpu
  rw [lineToBlock]
  simp only [bulletDash, List.cons_append, List.nil_append] at htrim
  simp only [bulletDash, List.cons_append, List.nil_append, htrim]
  rw [if_neg (by simp), if_neg (by simp [h1Mark, startsWith]),
    if_neg (by simp [h2Mark, startsWith]),
    if_neg (by simp [h3Mark, startsWith]), if_neg ?htd,
    if_pos (by simp [startsWith, startsWith_nil])]
  · rfl
  case htd =>
    have hA := wrap_not_todoU_tail c (u := u) hpt ht
    have hB := wrap_not_todoC_tail c (u := u) hpt ht
    simp only [todoUnchecked, todoChecked]
    rw [show startsWith ('-' :: ' ' :: wrapOf c t u)
          ['-', ' ', '[', ' ', ']', ' '] =
        startsWith (wrapOf c t u) ['[', ' ', ']', ' '] from rfl,
      show startsWith ('-' :: ' ' :: wrapOf c t u)
          ['-', ' ', '[', 'x', ']', ' '] =
        startsWith (wrapOf c t u) ['[', 'x', ']', ' '] from rfl, hA, hB]
    simp

theorem lineToBlock_numbered (c : Wrap) {t u : Str}
    (hpt : plainStr t = true) (ht : t ≠ []) (hpu : plainStr u = true) :
    lineToBlock (numberedOne ++ wrapOf c t u) =
      some (.numbered (parseInlineFormatting (wrapOf c t u))) := by
  obtain ⟨w0, w'', hw⟩ := List.exists_cons_of_ne_nil (wrap_ne_nil c (u := u) ht)
  have hw0 : isJsWhitespace w0 = false :=
    wrap_head_not_ws c hpt w0 (by rw [hw]; rfl)
  have hnlall : (w0 :: w'').all (fun d => d != '\n') = true := by
    have hnl := wrap_no_nl c hpt hpu
    rw [hw] at hnl
    simp only [List.all_eq_true, bne_iff_ne]
    intro d hd he
    exact hnl (he ▸ hd)
  have htrim := trim_marker numberedOne c
    (by intro d hd;
        simp only [numberedOne, List.head?_cons, Option.some.injEq] at hd;
        subst hd; decide) hpt ht hpu
  rw [lineToBlock]
  simp only [numberedOne, List.cons_append, List.nil_append] at htrim
  simp only [numberedOne, List.cons_append, List.nil_append, htrim]
  have d1 : Char.isDigit '1' = true := by decide
  have d2 : Char.isDigit '.' = false := by decide
  have d3 : isJsWhitespace ' ' = true := by decide
  have hnum : numberedMatch ('1' :: '.' :: ' ' :: wrapOf c t u) =
      some (wrapOf c t u) := by
    rw [hw]
    simp [numberedMatch, List.takeWhile_cons, d1, d2, d3, hw0, hnlall]
  rw [if_neg (by simp), if_neg (by simp [h1Mark, startsWith]),
    if_neg (by simp [h2Mark, startsWith]),
    if_neg (by simp [h3Mark, startsWith]),
    if_neg (by simp [todoUnchecked, todoChecked, startsWith]),
    if_neg (by simp [bulletDash, bulletStar, startsWith]), hnum]

theorem lineToBlock_marker {mk : Str} (hmk : mk ∈ canonicalMarkers) (c : Wrap)
    {t u : Str} (hpt : plainStr t = true) (ht : t ≠ [])
    (hpu : plainStr u = true) (hu : u ≠ []) :
    lineToBlock (mk ++ wrapOf c t u) =
      some (blockOfMarker mk (parseInlineFormatting (wrapOf c t u))) := by
  simp only [canonicalMarkers, List.mem_cons, List.mem_singleton] at hmk
  rcases hmk with rfl | rfl | rfl | rfl | rfl | rfl | rfl | rfl | rfl | hmk
  · rw [List.nil_append, lineToBlock_wrap c hpt ht hpu hu]; rfl
  · rw [lineToBlock_h1 c hpt ht hpu]; rfl
  · rw [lineToBlock_h2 c hpt ht hpu]; rfl
  · rw [lineToBlock_h3 c hpt ht hpu]; rfl
  · rw [lineToBlock_bullet c hpt ht hpu]; rfl
  · rw [lineToBlock_numbered c hpt ht hpu]; rfl
  · rw [lineToBlock_quote c hpt ht hpu]; rfl
  · rw [lineToBlock_todoU c hpt ht hpu]; rfl
  · rw [lineToBlock_todoC c hpt ht hpu]; rfl
  · exact absurd hmk (List.not_mem_nil mk)

theorem markdownToBlocks_single {m : Str} (hnl : '\n' ∉ m)
    (hf : startsWith m fence3 = false) :
    markdownToBlocks m = (lineToBlock m).toList := by
  rw [markdownToBlocks, parseCodeBlocks, splitLines_no_nl hnl]
  simp only [List.foldl_cons, List.foldl_nil, fenceStep, fenceInit, hf,
    Bool.false_eq_true, if_false, Bool.false_and, List.nil_append]
  simp only [List.isEmpty_cons, Bool.false_eq_true, if_false,
    List.isEmpty_nil, if_true, List.nil_append, List.foldl_cons, List.foldl_nil]
  rw [show joinNl [m] = m from intercalate_singleton ['\n'] m,
    splitLines_no_nl hnl]
  cases hl : lineToBlock m <;> simp [hl, List.filterMap_cons]

theorem marker_wrap_no_fence {mk : Str} (hmk : mk ∈ canonicalMarkers)
    (c : Wrap) {t u : Str} (hpt : plainStr t = true) (ht : t ≠ []) :
    startsWith (mk ++ wrapOf c t u) fence3 = false := by
  simp only [canonicalMarkers, List.mem_cons, List.mem_singleton] at hmk
  rcases hmk with rfl | rfl | rfl | rfl | rfl | rfl | rfl | rfl | rfl | hmk
  · rw [List.nil_append]
    cases c
    case plainW =>
      obtain ⟨t0, t', rfl⟩ := List.exists_cons_of_ne_nil ht
      exact startsWith_cons_ne (plainChar_props (plainStr_head hpt)).2.2.2.1
    case boldW => simp [wrapOf, fence3, startsWith]
    case italicW => simp [wrapOf, fence3, startsWith]
    case strikeW => simp [wrapOf, fence3, startsWith]
    case codeW =>
      obtain ⟨t0, t', rfl⟩ := List.exists_cons_of_ne_nil ht
      have h0 := (plainChar_props (plainStr_head hpt)).2.2.2.1
      simp [wrapOf, fence3, startsWith, h0]
    case linkW => simp [wrapOf, fence3, startsWith]
  · exact startsWith_cons_ne (by decide)
  · exact startsWith_cons_ne (by decide)
  · exact startsWith_cons_ne (by decide)
  · exact startsWith_cons_ne (by decide)
  · exact startsWith_cons_ne (by decide)
  · exact startsWith_cons_ne (by decide)
  · exact startsWith_cons_ne (by decide)
  · exact startsWith_cons_ne (by decide)
  · exact absurd hmk (List.not_mem_nil mk)

theorem marker_wrap_no_nl {mk : Str} (hmk : mk ∈ canonicalMarkers)
    (c : Wrap) {t u : Str} (hpt : plainStr t = true) (hpu : plainStr u = true) :
    '\n' ∉ mk ++ wrapOf c t u := by
  intro h
  rcases List.mem_append.mp h with h | h
  · simp only [canonicalMarkers, List.mem_cons, List.mem_singleton] at hmk
    rcases hmk with rfl | rfl | rfl | rfl | rfl | rfl | rfl | rfl | rfl | hmk
    all_goals first
      | exact absurd h (by decide)
      | exact absurd hmk (List.not_mem_nil mk)
  · exact wrap_no_nl c hpt hpu h

theorem runMdSpec_runOf (c : Wrap) (t u : Str) (hu : u ≠ []) :
    runMdSpec (runOf c t u) = wrapOf c t u := by
  cases c
  case linkW =>
    obtain ⟨u0, u', rfl⟩ := List.exists_cons_of_ne_nil hu
    rfl
  all_goals rfl

theorem blockSegments_marker {mk : Str} (hmk : mk ∈ canonicalMarkers)
    (rs : List NotionRichText) :
    blockSegments (blockOfMarker mk rs) = [mk ++ runsMdSpec rs] := by
  simp only [canonicalMarkers, List.mem_cons, List.mem_singleton] at hmk
  rcases hmk with rfl | rfl | rfl | rfl | rfl | rfl | rfl | rfl | rfl | hmk
  all_goals first
    | rfl
    | exact absurd hmk (List.not_mem_nil mk)


/-- C2 amended: the round trip `blocksToMarkdown (markdownToBlocks m)` is the
identity on every single-line block `m` built from one of the canonical line
markers (none, `# `, `## `, `### `, `- `, `1. `, `> `, `- [ ] `, `- [x] `)
followed by one inline construct (plain text or exactly one bold, italic,
strikethrough, code or link wrap) whose inner text and url are non-empty and
free of whitespace and of delimiter or marker characters.  The original claim
over every single-block `m` is refuted by `c2_counterexample`: a numbered
item keeps only the content after the marker and is re-serialized with the
fixed prefix `1. `, so `2. a` round-trips to `1. a`. -/
theorem c2_roundtrip_single_annotation {mk : Str} (hmk : mk ∈ canonicalMarkers)
    (c : Wrap) {t u : Str} (hpt : plainStr t = true) (ht : t ≠ [])
    (hpu : plainStr u = true) (hu : u ≠ []) :
    roundTrip (mk ++ wrapOf c t u) = .ok (mk ++ wrapOf c t u) := by
  rw [roundTrip,
    markdownToBlocks_single (marker_wrap_no_nl hmk c hpt hpu)
      (marker_wrap_no_fence hmk c hpt ht),
    lineToBlock_marker hmk c hpt ht hpu hu,
    parseInline_wrap c hpt ht hpu hu]
  rw [show (some (blockOfMarker mk [runOf c t u])).toList =
      [blockOfMarker mk [runOf c t u]] from rfl,
    blocksToMarkdown_segments [blockOfMarker mk [runOf c t u]]]
  simp [blockSegments_marker hmk, runsMdSpec, runMdSpec_runOf c t u hu,
    intercalate_singleton]

/-- Witness for the amended round-trip theorem at the concrete input
`# **hi**` (heading marker with a bold wrap). -/
theorem c2_roundtrip_single_annotation_witness :
    roundTrip (h1Mark ++ wrapOf .boldW ['h', 'i'] ['u']) =
      .ok (h1Mark ++ wrapOf .boldW ['h', 'i'] ['u']) :=
  c2_roundtrip_single_annotation (by decide) .boldW (by decide) (by decide)
    (by decide) (by decide)

/-- C2 counterexample: `2. a` is a single block whose inline content carries
no annotation at all, yet the round trip returns `1. a`, not `2. a`. -/
theorem c2_counterexample :
    roundTrip ['2', '.', ' ', 'a'] = .ok ['1', '.', ' ', 'a'] ∧
      (['1', '.', ' ', 'a'] : Str) ≠ ['2', '.', ' ', 'a'] := by
  constructor
  · rfl
  · decide

end NotionMcp
